import Mathlib

/-!
# Assignment4: Mandelbrot renderer

A shallow embedding of `src/Assignment4/Assignment4.cpp`.

* `float` is IEEE-754 binary32.  A finite `float` is modelled by the rational number it
  denotes and every arithmetic operation rounds its exact result to the nearest binary32
  value, ties to even: 24 significant bits.  Each operation is rounded on its own (no fused
  multiply-add, no extended precision).
* The coordinates computed by `getPosition` are values of `F32.Ext`: a finite value, an
  infinity or NaN.  Their operations round with the exponent range of binary32
  (`F32.roundFinite`: subnormal values below `2^-126`, overflow to an infinity beyond the
  largest finite value); the two zeros are not told apart.  A point with an infinite or NaN
  coordinate is evaluated with the same operations (`evaluatePointExt`).
* In the evaluator of a finite point and in the colour computation the operations round
  with `F32.round`, whose exponent range is not bounded.
* `std::size_t` values are natural numbers; where the source can wrap (the number of
  pixels, the byte offsets `3 * i`), the operation is written with an explicit `% 2^64`.
  The `int` variables (`count`, the loop counter of
  `evaluatePoint`) are natural numbers: values beyond the range of `int` are not modelled.
* The workers of `plotMandelbrot` are joined before it returns and write to the buffer
  only; they are run one after another, in an order that is a parameter.
* `log2` is the C library's function and is not part of the repository: the embedding takes
  it as the parameter `lg`.
* The image buffer is a map from byte offsets to bytes.
-/

namespace F32

/-- Number of binary digits of `n`, by halving (`fuel` bounds the number of halvings). -/
def bitLenAux : Nat → Nat → Nat
  | 0, _ => 0
  | fuel + 1, n => if n = 0 then 0 else bitLenAux fuel (n / 2) + 1

/-- Number of binary digits of `n`: `0` for `0`, otherwise the `b` with `2^(b-1) ≤ n < 2^b`. -/
def bitLen (n : Nat) : Nat := bitLenAux n n

/-- Binary exponent of a nonzero rational: the `k` with `2^k ≤ |q| < 2^(k+1)`. -/
def ilog2 (q : ℚ) : ℤ :=
  let s : ℤ := (bitLen q.num.natAbs : ℤ) - (bitLen q.den : ℤ)
  if (2 : ℚ) ^ s ≤ |q| then s else s - 1

/-- Round a rational to the nearest integer, ties to the even one. -/
def rne (x : ℚ) : ℤ :=
  let f := ⌊x⌋
  let r := x - f
  if r < 1 / 2 then f
  else if 1 / 2 < r then f + 1
  else if f % 2 = 0 then f else f + 1

/-- Round a rational to binary32: 24 significant bits, ties to even. -/
def round (q : ℚ) : ℚ :=
  if q = 0 then 0
  else
    let e : ℤ := ilog2 q - 23
    (rne (q / 2 ^ e) : ℚ) * 2 ^ e

/-- Conversion of an unsigned integer to `float`. -/
def ofNat (n : Nat) : ℚ := round n

/-- `float` addition. -/
def add (a b : ℚ) : ℚ := round (a + b)

/-- `float` subtraction. -/
def sub (a b : ℚ) : ℚ := round (a - b)

/-- `float` multiplication. -/
def mul (a b : ℚ) : ℚ := round (a * b)

/-- `float` division. -/
def div (a b : ℚ) : ℚ := round (a / b)

/-- Integer square root by binary digits: `bits` digits remain to be decided, `r` is the
root found so far. -/
def isqrtAux (n : Nat) : Nat → Nat → Nat
  | 0, r => r
  | bits + 1, r => isqrtAux n bits (if (r + 2 ^ bits) * (r + 2 ^ bits) ≤ n then r + 2 ^ bits else r)

/-- Integer square root: the `r` with `r^2 ≤ n < (r+1)^2`. -/
def isqrt (n : Nat) : Nat := isqrtAux n (bitLen n) 0

/-- Correctly rounded `float` square root of a non-negative value: the significand is the
integer square root of the argument scaled by an even power of two, moved up by one when
the exact root lies above the midpoint. -/
def sqrt (x : ℚ) : ℚ :=
  if x ≤ 0 then 0
  else
    let e : ℤ := ilog2 x / 2 - 23
    let y : ℚ := x / 2 ^ (2 * e)
    let m0 : Nat := isqrt ⌊y⌋.toNat
    let m : Nat := if (m0 : ℚ) * m0 + m0 + 1 / 4 < y then m0 + 1 else m0
    (m : ℚ) * 2 ^ e

/-- The function `std::ceil` followed by the conversion to an integer. -/
def ceil (x : ℚ) : ℤ := ⌈x⌉

/-- Function `std::clamp(v, lo, hi)`. -/
def clamp (v lo hi : ℚ) : ℚ := if v < lo then lo else if hi < v then hi else v

/-- Conversion `static_cast<uint8_t>` of a `float`: the fraction is discarded (truncation
toward zero); the result is kept in the range of a byte. -/
def toUInt8 (x : ℚ) : Nat := (if 0 ≤ x then ⌊x⌋ else ⌈x⌉).toNat % 256

/-- A rational is a binary32 value when rounding leaves it unchanged. -/
def isFloat (x : ℚ) : Prop := round x = x

instance (x : ℚ) : Decidable (isFloat x) := inferInstanceAs (Decidable (round x = x))

/-- Rounding to binary32 with the exponent range of the format.  A result of magnitude below
`2^-126` is rounded to a multiple of `2^-149` (subnormal values); the result is `none` when
the rounded magnitude is beyond the largest finite value `2^128 - 2^104` (overflow). -/
def roundFinite (q : ℚ) : Option ℚ :=
  if (2 : ℚ) ^ 128 ≤ |round q| then none
  else if 1 / 2 ^ 126 ≤ |q| then some (round q)
  else some ((rne (q * 2 ^ 149) : ℚ) / 2 ^ 149)

/-- A rational is a finite binary32 value (normal, subnormal or zero) when rounding with
the exponent range of the format leaves it unchanged. -/
def isBinary32 (x : ℚ) : Prop := roundFinite x = some x

instance (x : ℚ) : Decidable (isBinary32 x) :=
  inferInstanceAs (Decidable (roundFinite x = some x))

/-- A finite binary32 value that is zero or of magnitude between `2^-125` and `2^126`: its
half is zero or a normal value, and the sum of two such values does not overflow. -/
def inNormalRange (x : ℚ) : Prop :=
  isBinary32 x ∧ (x = 0 ∨ 1 / 2 ^ 125 ≤ |x|) ∧ |x| ≤ 2 ^ 126

instance (x : ℚ) : Decidable (inNormalRange x) := inferInstanceAs (Decidable (_ ∧ _))

/-- A binary32 value: a finite one (the rational it denotes), an infinity with its sign, or
NaN. -/
inductive Ext where
  | fin (value : ℚ)
  | inf (negative : Bool)
  | nan
deriving DecidableEq

/-- The binary32 result of an operation whose exact result is `q`: the rounded value, or
the infinity of the sign of `q` on overflow. -/
def Ext.ofRat (q : ℚ) : Ext :=
  match roundFinite q with
  | some r => .fin r
  | none => .inf (decide (q < 0))

/-- Conversion of an unsigned integer to `float`. -/
def Ext.ofNat (n : Nat) : Ext := Ext.ofRat n

/-- `float` addition; `inf + (-inf)` is NaN. -/
def Ext.add : Ext → Ext → Ext
  | .nan, _ => .nan
  | _, .nan => .nan
  | .fin a, .fin b => Ext.ofRat (a + b)
  | .fin _, .inf t => .inf t
  | .inf s, .fin _ => .inf s
  | .inf s, .inf t => if s = t then .inf s else .nan

/-- `float` subtraction; `inf - inf` is NaN. -/
def Ext.sub : Ext → Ext → Ext
  | .nan, _ => .nan
  | _, .nan => .nan
  | .fin a, .fin b => Ext.ofRat (a - b)
  | .fin _, .inf t => .inf (!t)
  | .inf s, .fin _ => .inf s
  | .inf s, .inf t => if s = t then .nan else .inf s

/-- `float` multiplication; `0 * inf` is NaN. -/
def Ext.mul : Ext → Ext → Ext
  | .nan, _ => .nan
  | _, .nan => .nan
  | .fin a, .fin b => Ext.ofRat (a * b)
  | .fin a, .inf t => if a = 0 then .nan else .inf (xor (decide (a < 0)) t)
  | .inf s, .fin b => if b = 0 then .nan else .inf (xor s (decide (b < 0)))
  | .inf s, .inf t => .inf (xor s t)

/-- `float` division; `0 / 0` and `inf / inf` are NaN, a nonzero value over zero is an
infinity (the zero divisor is taken as `+0`). -/
def Ext.div : Ext → Ext → Ext
  | .nan, _ => .nan
  | _, .nan => .nan
  | .fin a, .fin b =>
    if b = 0 then (if a = 0 then .nan else .inf (decide (a < 0))) else Ext.ofRat (a / b)
  | .fin _, .inf _ => .fin 0
  | .inf s, .fin b => .inf (xor s (decide (b < 0)))
  | .inf _, .inf _ => .nan

/-- `float` square root; the root of a negative value is NaN. -/
def Ext.sqrt : Ext → Ext
  | .nan => .nan
  | .fin a => if a < 0 then .nan else .fin (F32.sqrt a)
  | .inf s => if s then .nan else .inf false

/-- The comparison `a < b` of two `float`s: false when either is NaN. -/
def Ext.lt : Ext → Ext → Bool
  | .nan, _ => false
  | _, .nan => false
  | .fin a, .fin b => decide (a < b)
  | .fin _, .inf t => !t
  | .inf s, .fin _ => s
  | .inf s, .inf t => s && !t

end F32

namespace Assignment4

/-- Complex number with `float` components (`struct Complex`). -/
structure Complex where
  real : ℚ
  im : ℚ
deriving DecidableEq

/-- The member `Complex::operator+`. -/
def Complex.add (a b : Complex) : Complex :=
  ⟨F32.add a.real b.real, F32.add a.im b.im⟩

/-- The member `Complex::operator*`. -/
def Complex.mul (a b : Complex) : Complex :=
  ⟨F32.sub (F32.mul a.real b.real) (F32.mul a.im b.im),
   F32.add (F32.mul a.real b.im) (F32.mul a.im b.real)⟩

/-- The member `Complex::length`. -/
def Complex.length (a : Complex) : ℚ :=
  F32.sqrt (F32.add (F32.mul a.real a.real) (F32.mul a.im a.im))

/-- Colour with `float` channels (`struct Color3f`). -/
structure Color3f where
  r : ℚ
  g : ℚ
  b : ℚ
deriving DecidableEq

/-- All three channels are binary32 values, as the type `float` of the fields requires. -/
def Color3f.isFloat (c : Color3f) : Prop :=
  F32.isFloat c.r ∧ F32.isFloat c.g ∧ F32.isFloat c.b

instance (c : Color3f) : Decidable c.isFloat := inferInstanceAs (Decidable (_ ∧ _))

/-- All three channels are finite binary32 values, zero or of magnitude between `2^-125`
and `2^126`. -/
def Color3f.inNormalRange (c : Color3f) : Prop :=
  F32.inNormalRange c.r ∧ F32.inNormalRange c.g ∧ F32.inNormalRange c.b

instance (c : Color3f) : Decidable c.inNormalRange := inferInstanceAs (Decidable (_ ∧ _))

/-- The member `Color3f::operator*(float value)`. -/
def Color3f.scale (c : Color3f) (value : ℚ) : Color3f :=
  ⟨F32.mul value c.r, F32.mul value c.g, F32.mul value c.b⟩

/-- The member `Color3f::operator+`: each channel is `other + this`. -/
def Color3f.add (this other : Color3f) : Color3f :=
  ⟨F32.add other.r this.r, F32.add other.g this.g, F32.add other.b this.b⟩

/-- The global colour configuration: `colorPalette` and `inSet`. -/
structure Colors where
  colorPalette : List (Nat × Color3f)
  inSet : Color3f

/-- The camera: the `left`, `right`, `up`, `down` arguments. -/
structure Camera where
  left : ℚ
  right : ℚ
  up : ℚ
  down : ℚ

/-- All four bounds are finite binary32 values. -/
def Camera.isFloat (cam : Camera) : Prop :=
  F32.isBinary32 cam.left ∧ F32.isBinary32 cam.right ∧ F32.isBinary32 cam.up ∧
    F32.isBinary32 cam.down

instance (cam : Camera) : Decidable cam.isFloat := inferInstanceAs (Decidable (_ ∧ _))

/-- Function `getPosition`: the point of the plane for a flat index.  The bounds of the
camera are finite `float`s; a coordinate of the result is infinite or NaN when an operation
overflows. -/
def getPosition (index width height : Nat) (cam : Camera) : F32.Ext × F32.Ext :=
  let row := index / width
  let column := index % width
  let x := F32.Ext.add (.fin cam.left)
    (F32.Ext.mul
      (F32.Ext.div (F32.Ext.sub (.fin cam.right) (.fin cam.left)) (F32.Ext.ofNat width))
      (F32.Ext.ofNat column))
  let y := F32.Ext.sub (.fin cam.up)
    (F32.Ext.mul
      (F32.Ext.div (F32.Ext.sub (.fin cam.up) (.fin cam.down)) (F32.Ext.ofNat height))
      (F32.Ext.ofNat row))
  (x, y)

/-- The loop of `evaluatePoint`: `remaining` iterations are left, `i` is the loop counter
and `z` the current value. -/
def evaluateLoop (c : Complex) : Nat → Nat → Complex → Bool × Nat
  | 0, _, _ => (true, 0)
  | remaining + 1, i, z =>
    if 2 < z.length then (false, i + 1)
    else evaluateLoop c remaining (i + 1) ((z.mul z).add c)

/-- Function `evaluatePoint`. -/
def evaluatePoint (c : Complex) (iterations : Nat) : Bool × Nat :=
  evaluateLoop c iterations 0 ⟨0, 0⟩

/-- Complex number whose `float` components may be infinite or NaN (`struct Complex`). -/
structure ComplexExt where
  real : F32.Ext
  im : F32.Ext
deriving DecidableEq

/-- The member `Complex::operator+`, on components that may be infinite or NaN. -/
def ComplexExt.add (a b : ComplexExt) : ComplexExt :=
  ⟨F32.Ext.add a.real b.real, F32.Ext.add a.im b.im⟩

/-- The member `Complex::operator*`, on components that may be infinite or NaN. -/
def ComplexExt.mul (a b : ComplexExt) : ComplexExt :=
  ⟨F32.Ext.sub (F32.Ext.mul a.real b.real) (F32.Ext.mul a.im b.im),
   F32.Ext.add (F32.Ext.mul a.real b.im) (F32.Ext.mul a.im b.real)⟩

/-- The member `Complex::length`, on components that may be infinite or NaN. -/
def ComplexExt.length (a : ComplexExt) : F32.Ext :=
  F32.Ext.sqrt (F32.Ext.add (F32.Ext.mul a.real a.real) (F32.Ext.mul a.im a.im))

/-- The loop of `evaluatePoint` on a point whose components may be infinite or NaN. -/
def evaluateLoopExt (c : ComplexExt) : Nat → Nat → ComplexExt → Bool × Nat
  | 0, _, _ => (true, 0)
  | remaining + 1, i, z =>
    if F32.Ext.lt (.fin 2) z.length then (false, i + 1)
    else evaluateLoopExt c remaining (i + 1) ((z.mul z).add c)

/-- Function `evaluatePoint` on a point whose components may be infinite or NaN. -/
def evaluatePointExt (c : ComplexExt) (iterations : Nat) : Bool × Nat :=
  evaluateLoopExt c iterations 0 ⟨.fin 0, .fin 0⟩

/-- The call `evaluatePoint(point, iterations)` of `plotMandelbrotSection`, `point` being
built from the pair returned by `getPosition`: `evaluatePoint` for a point with finite
coordinates, `evaluatePointExt` for a point with an infinite or NaN coordinate. -/
def evaluatePosition (p : F32.Ext × F32.Ext) (iterations : Nat) : Bool × Nat :=
  match p with
  | (.fin x, .fin y) => evaluatePoint ⟨x, y⟩ iterations
  | (x, y) => evaluatePointExt ⟨x, y⟩ iterations

/-- The value `z_n` of the recurrence `z_0 = 0`, `z_{n+1} = z_n * z_n + c`, computed with the
program's `float` operations. -/
def orbit (c : Complex) : Nat → Complex
  | 0 => ⟨0, 0⟩
  | n + 1 => ((orbit c n).mul (orbit c n)).add c

/-- Threshold of control point `k` (`colorPalette[k].first`). -/
def threshold (palette : List (Nat × Color3f)) (k : Nat) : Nat :=
  (palette.getD k (0, ⟨0, 0, 0⟩)).1

/-- Colour of control point `k` (`colorPalette[k].second`). -/
def colorAt (palette : List (Nat × Color3f)) (k : Nat) : Color3f :=
  (palette.getD k (0, ⟨0, 0, 0⟩)).2

/-- The palette scan `while (colorIndex + 1 < size && power > palette[colorIndex].first)
++colorIndex`; `fuel` bounds the number of increments. -/
def scanLoop (palette : List (Nat × Color3f)) (power : ℚ) : Nat → Nat → Nat
  | 0, colorIndex => colorIndex
  | fuel + 1, colorIndex =>
    if colorIndex + 1 < palette.length ∧ F32.ofNat (threshold palette colorIndex) < power then
      scanLoop palette power fuel (colorIndex + 1)
    else colorIndex

/-- The palette scan started at `colorIndex = 0`. -/
def paletteScan (palette : List (Nat × Color3f)) (power : ℚ) : Nat :=
  scanLoop palette power palette.length 0

/-- The interpolation factor `t` of the `else` branch:
`(power - palette[k-1].first) / (palette[k].first - palette[k-1].first)`, the denominator
being an unsigned subtraction converted to `float`. -/
def interpolationFactor (palette : List (Nat × Color3f)) (power : ℚ) (k : Nat) : ℚ :=
  F32.div (F32.sub power (F32.ofNat (threshold palette (k - 1))))
    (F32.ofNat ((threshold palette k + 2 ^ 64 - threshold palette (k - 1)) % 2 ^ 64))

/-- The interpolated colour `palette[k].second * t + palette[k-1].second * (1.0f - t)`. -/
def interpolate (palette : List (Nat × Color3f)) (t : ℚ) (k : Nat) : Color3f :=
  ((colorAt palette k).scale t).add ((colorAt palette (k - 1)).scale (F32.sub 1 t))

/-- Colour of a sample that escaped at `iteration` (the `else` branch of
`plotMandelbrotSection`).  The result is `none` when `front()` is taken of an empty
palette, which the language leaves undefined. -/
def escapedColor (lg : ℚ → ℚ) (palette : List (Nat × Color3f)) (iteration : Nat) :
    Option Color3f :=
  let power := lg (F32.ofNat iteration)
  let colorIndex := paletteScan palette power
  if colorIndex = 0 then palette.head?.map Prod.snd
  else some (interpolate palette (interpolationFactor palette power colorIndex) colorIndex)

/-- Colour chosen for an evaluation result. -/
def sampleColor (lg : ℚ → ℚ) (colors : Colors) (evaluation : Bool × Nat) : Option Color3f :=
  if evaluation.1 then some colors.inSet
  else escapedColor lg colors.colorPalette evaluation.2

/-- The byte stored at `image[3 * i]`:
`static_cast<uint8_t>(std::clamp(color.r, 0.0f, 1.0f)) * 255.0f`, converted to a byte by
the assignment. -/
def redByte (r : ℚ) : Nat :=
  F32.toUInt8 (F32.mul (F32.ofNat (F32.toUInt8 (F32.clamp r 0 1))) 255)

/-- The byte stored at `image[3 * i + 1]` and `image[3 * i + 2]`:
`static_cast<uint8_t>(std::clamp(channel, 0.0f, 1.0f) * 255.0f)`. -/
def channelByte (channel : ℚ) : Nat :=
  F32.toUInt8 (F32.mul (F32.clamp channel 0 1) 255)

/-- The colour computed for index `i` by the body of the loop of `plotMandelbrotSection`. -/
def pixelColor (lg : ℚ → ℚ) (colors : Colors) (width height : Nat) (cam : Camera)
    (iterations i : Nat) : Option Color3f :=
  sampleColor lg colors (evaluatePosition (getPosition i width height cam) iterations)

/-- The three bytes written for index `i`. -/
def pixelBytes (lg : ℚ → ℚ) (colors : Colors) (width height : Nat) (cam : Camera)
    (iterations i : Nat) : Option (Nat × Nat × Nat) :=
  (pixelColor lg colors width height cam iterations i).map
    fun color => (redByte color.r, channelByte color.g, channelByte color.b)

/-- The image buffer: the byte stored at each offset. -/
abbrev Image := Nat → Nat

/-- The three stores `image[3*i]`, `image[3*i+1]`, `image[3*i+2]`; the offsets are
`std::size_t` values and wrap at `2^64`. -/
def writePixel (image : Image) (i : Nat) (bytes : Nat × Nat × Nat) : Image :=
  Function.update
    (Function.update (Function.update image ((3 * i) % 2 ^ 64) bytes.1)
      ((3 * i + 1) % 2 ^ 64) bytes.2.1)
    ((3 * i + 2) % 2 ^ 64) bytes.2.2

/-- The loop of `plotMandelbrotSection`: `remaining` indices are left, `i` is the loop
counter. -/
def sectionLoop (lg : ℚ → ℚ) (colors : Colors) (width height : Nat) (cam : Camera)
    (iterations : Nat) : Nat → Nat → Image → Option Image
  | 0, _, image => some image
  | remaining + 1, i, image =>
    match pixelBytes lg colors width height cam iterations i with
    | none => none
    | some bytes =>
      sectionLoop lg colors width height cam iterations remaining (i + 1)
        (writePixel image i bytes)

/-- Function `plotMandelbrotSection`: the loop runs for `i = startIndex`, ..., while
`i < upperBound`. -/
def plotMandelbrotSection (lg : ℚ → ℚ) (colors : Colors) (image : Image)
    (startIndex upperBound width height : Nat) (cam : Camera) (iterations : Nat) :
    Option Image :=
  sectionLoop lg colors width height cam iterations (upperBound - startIndex) startIndex image

/-- The value `count = std::ceil(width * height / (float)threads)` of `plotMandelbrot`:
both operands are converted to `float`, the quotient is a `float` division. -/
def workerCount (totalPixels threads : Nat) : Nat :=
  (F32.ceil (F32.div (F32.ofNat totalPixels) (F32.ofNat threads))).toNat

/-- The `startIndex` handed to worker `i`. -/
def startIndex (count i : Nat) : Nat := i * count

/-- The `upperBound` handed to worker `i`. -/
def upperBound (count totalPixels i : Nat) : Nat := min (startIndex count i + count) totalPixels

/-- Function `plotMandelbrot` with its workers run one after another in the given `order`
(a list of worker numbers); `image` is the content of the freshly allocated buffer. -/
def plotMandelbrotIn (lg : ℚ → ℚ) (colors : Colors) (image : Image) (order : List Nat)
    (threads width height : Nat) (cam : Camera) (iterations : Nat) : Option Image :=
  let totalPixels := (width * height) % 2 ^ 64
  let count := workerCount totalPixels threads
  order.foldlM
    (fun img i => plotMandelbrotSection lg colors img (startIndex count i)
      (upperBound count totalPixels i) width height cam iterations)
    image

/-- Function `plotMandelbrot`, workers run in the order they are launched. -/
def plotMandelbrot (lg : ℚ → ℚ) (colors : Colors) (image : Image)
    (threads width height : Nat) (cam : Camera) (iterations : Nat) : Option Image :=
  plotMandelbrotIn lg colors image (List.range threads) threads width height cam iterations

/-- Component `j` (0, 1 or 2) of the three bytes of a pixel. -/
def byteOf (bytes : Nat × Nat × Nat) (j : Nat) : Nat :=
  if j = 0 then bytes.1 else if j = 1 then bytes.2.1 else bytes.2.2

/-- Worker `k` iterates index `i`: `startIndex ≤ i < upperBound`. -/
def iterates (count totalPixels k i : Nat) : Prop :=
  startIndex count k ≤ i ∧ i < upperBound count totalPixels k

instance (count totalPixels k i : Nat) : Decidable (iterates count totalPixels k i) :=
  inferInstanceAs (Decidable (_ ∧ _))

/-- The shipped `colorPalette` and `inSet`; `0.08f` is the binary32 value nearest to 0.08. -/
def shippedColors : Colors where
  colorPalette := [(0, ⟨0, F32.round (8 / 100), 1 / 4⟩), (10, ⟨1, 1, 1⟩)]
  inSet := ⟨0, 0, 0⟩

/-- The shipped camera. -/
def shippedCamera : Camera where
  left := -2
  right := 3 / 4
  up := 1
  down := -1

end Assignment4

namespace F32

/-! ## Rounding to binary32 -/

/-- The halving count of a positive number is one more than its binary exponent. -/
theorem bitLenAux_spec : ∀ (fuel n : Nat), 0 < n → n ≤ fuel →
    ∃ b, bitLenAux fuel n = b + 1 ∧ 2 ^ b ≤ n ∧ n < 2 ^ (b + 1)
  | 0, n, hn, hf => by omega
  | fuel + 1, n, hn, hf => by
    rw [bitLenAux, if_neg (by omega)]
    by_cases h2 : n / 2 = 0
    · refine ⟨0, ?_, by omega, by omega⟩
      rw [h2]
      cases fuel <;> simp [bitLenAux]
    · obtain ⟨b, hb, hlo, hhi⟩ := bitLenAux_spec fuel (n / 2) (by omega) (by omega)
      refine ⟨b + 1, by rw [hb], ?_, ?_⟩
      · rw [pow_succ]; omega
      · rw [pow_succ] at hhi ⊢; omega

/-- The number of binary digits of a positive number. -/
theorem bitLen_spec (n : Nat) (hn : 0 < n) :
    ∃ b, bitLen n = b + 1 ∧ 2 ^ b ≤ n ∧ n < 2 ^ (b + 1) :=
  bitLenAux_spec n n hn (le_refl n)

/-- The binary exponent brackets the magnitude. -/
theorem ilog2_spec (q : ℚ) (hq : q ≠ 0) :
    (2 : ℚ) ^ ilog2 q ≤ |q| ∧ |q| < (2 : ℚ) ^ (ilog2 q + 1) := by
  have hnum : 0 < q.num.natAbs := Int.natAbs_pos.mpr (Rat.num_ne_zero.mpr hq)
  obtain ⟨bn, hbn, hnlo, hnhi⟩ := bitLen_spec q.num.natAbs hnum
  obtain ⟨bd, hbd, hdlo, hdhi⟩ := bitLen_spec q.den q.den_pos
  have habs : |q| = (q.num.natAbs : ℚ) / (q.den : ℚ) := by
    conv_lhs => rw [← Rat.num_div_den q]
    rw [abs_div, Nat.abs_cast, Nat.cast_natAbs, Int.cast_abs]
  have hd0 : (0 : ℚ) < q.den := by exact_mod_cast q.den_pos
  have hs : ((bitLen q.num.natAbs : ℤ) - (bitLen q.den : ℤ)) = (bn : ℤ) - (bd : ℤ) := by
    rw [hbn, hbd]; push_cast; ring
  have hnlo' : (2 : ℚ) ^ bn ≤ (q.num.natAbs : ℚ) := by exact_mod_cast hnlo
  have hnhi' : (q.num.natAbs : ℚ) < (2 : ℚ) ^ (bn + 1) := by exact_mod_cast hnhi
  have hdlo' : (2 : ℚ) ^ bd ≤ (q.den : ℚ) := by exact_mod_cast hdlo
  have hdhi' : (q.den : ℚ) < (2 : ℚ) ^ (bd + 1) := by exact_mod_cast hdhi
  have h2 : (0 : ℚ) < 2 := by norm_num
  have hup : |q| < (2 : ℚ) ^ ((bn : ℤ) - (bd : ℤ) + 1) := by
    rw [habs, div_lt_iff₀ hd0]
    have e : (2 : ℚ) ^ ((bn : ℤ) - (bd : ℤ) + 1) = (2 : ℚ) ^ (bn + 1) / (2 : ℚ) ^ bd := by
      rw [show (bn : ℤ) - (bd : ℤ) + 1 = ((bn + 1 : ℕ) : ℤ) - ((bd : ℕ) : ℤ) by push_cast; ring,
        zpow_sub₀ (ne_of_gt h2), zpow_natCast, zpow_natCast]
    rw [e, div_mul_eq_mul_div, lt_div_iff₀ (pow_pos h2 bd)]
    calc (q.num.natAbs : ℚ) * 2 ^ bd < 2 ^ (bn + 1) * 2 ^ bd :=
          mul_lt_mul_of_pos_right hnhi' (pow_pos h2 bd)
      _ ≤ 2 ^ (bn + 1) * q.den := mul_le_mul_of_nonneg_left hdlo' (le_of_lt (pow_pos h2 _))
  have hlow : (2 : ℚ) ^ ((bn : ℤ) - (bd : ℤ) - 1) < |q| := by
    rw [habs, lt_div_iff₀ hd0]
    have e : (2 : ℚ) ^ ((bn : ℤ) - (bd : ℤ) - 1) = (2 : ℚ) ^ bn / (2 : ℚ) ^ (bd + 1) := by
      rw [show (bn : ℤ) - (bd : ℤ) - 1 = ((bn : ℕ) : ℤ) - ((bd + 1 : ℕ) : ℤ) by push_cast; ring,
        zpow_sub₀ (ne_of_gt h2), zpow_natCast, zpow_natCast]
    rw [e, div_mul_eq_mul_div, div_lt_iff₀ (pow_pos h2 (bd + 1))]
    calc (2 : ℚ) ^ bn * q.den < 2 ^ bn * 2 ^ (bd + 1) :=
          mul_lt_mul_of_pos_left hdhi' (pow_pos h2 bn)
      _ ≤ (q.num.natAbs : ℚ) * 2 ^ (bd + 1) :=
          mul_le_mul_of_nonneg_right hnlo' (le_of_lt (pow_pos h2 _))
  simp only [ilog2]
  rw [hs]
  split_ifs with hc
  · exact ⟨hc, hup⟩
  · refine ⟨le_of_lt hlow, ?_⟩
    rw [sub_add_cancel]
    exact not_le.mp hc

/-- The binary exponent is the only integer that brackets the magnitude. -/
theorem ilog2_unique (q : ℚ) (k : ℤ) (hlo : (2 : ℚ) ^ k ≤ |q|) (hhi : |q| < (2 : ℚ) ^ (k + 1)) :
    ilog2 q = k := by
  have hq : q ≠ 0 := by
    intro h
    rw [h, abs_zero] at hlo
    exact absurd hlo (not_le.mpr (zpow_pos (by norm_num) k))
  obtain ⟨h1, h2⟩ := ilog2_spec q hq
  have h12 : (1 : ℚ) < 2 := by norm_num
  have a : k < ilog2 q + 1 := (zpow_lt_zpow_iff_right₀ h12).mp (lt_of_le_of_lt hlo h2)
  have b : ilog2 q < k + 1 := (zpow_lt_zpow_iff_right₀ h12).mp (lt_of_le_of_lt h1 hhi)
  omega

/-- Rounding to nearest never goes below the floor. -/
theorem floor_le_rne (x : ℚ) : ⌊x⌋ ≤ rne x := by
  simp only [rne]
  split_ifs <;> omega

/-- An integer is rounded to itself. -/
theorem rne_intCast (m : ℤ) : rne (m : ℚ) = m := by
  simp [rne]

/-- Rounding to nearest keeps an integer lower bound. -/
theorem le_rne (x : ℚ) (M : ℤ) (h : (M : ℚ) ≤ x) : M ≤ rne x :=
  le_trans (Int.le_floor.mpr h) (floor_le_rne x)

/-- Rounding to nearest keeps an integer upper bound. -/
theorem rne_le (x : ℚ) (M : ℤ) (h : x ≤ (M : ℚ)) : rne x ≤ M := by
  have hf : (⌊x⌋ : ℚ) ≤ x := Int.floor_le x
  have hfM : ⌊x⌋ ≤ M := by exact_mod_cast hf.trans h
  have hstep : (1 : ℚ) / 2 ≤ x - ⌊x⌋ → ⌊x⌋ + 1 ≤ M := by
    intro hr
    have h1 : (⌊x⌋ : ℚ) < (M : ℚ) := by linarith
    have h2 : ⌊x⌋ < M := by exact_mod_cast h1
    omega
  simp only [rne]
  split_ifs with h1 h2 h3
  · exact hfM
  · exact hstep (le_of_lt h2)
  · exact hfM
  · exact hstep (not_lt.mp h1)

/-- Rounding to nearest goes up past an integer that is more than one half below. -/
theorem lt_rne (x : ℚ) (M : ℤ) (h : (M : ℚ) + 1 / 2 < x) : M + 1 ≤ rne x := by
  have hfl : M ≤ ⌊x⌋ := Int.le_floor.mpr (by linarith)
  by_cases hM : M + 1 ≤ ⌊x⌋
  · exact le_trans hM (floor_le_rne x)
  · have hfM : ⌊x⌋ = M := by omega
    simp only [rne]
    rw [hfM, if_neg (by linarith), if_pos (by linarith)]

/-- Unfolding of `round` at a nonzero argument. -/
theorem round_of_ne_zero (q : ℚ) (hq : q ≠ 0) :
    round q = (rne (q / 2 ^ (ilog2 q - 23)) : ℚ) * 2 ^ (ilog2 q - 23) := by
  simp [round, hq]

/-- Rounding keeps a lower bound that lies on the grid of the argument's binade. -/
theorem grid_le_round (x : ℚ) (hx : x ≠ 0) (M : ℤ)
    (h : (M : ℚ) * 2 ^ (ilog2 x - 23) ≤ x) : (M : ℚ) * 2 ^ (ilog2 x - 23) ≤ round x := by
  have hp : (0 : ℚ) < 2 ^ (ilog2 x - 23) := zpow_pos (by norm_num) _
  rw [round_of_ne_zero x hx]
  refine mul_le_mul_of_nonneg_right ?_ (le_of_lt hp)
  exact_mod_cast le_rne _ M ((le_div_iff₀ hp).mpr h)

/-- Rounding keeps an upper bound that lies on the grid of the argument's binade. -/
theorem round_le_grid (x : ℚ) (hx : x ≠ 0) (M : ℤ)
    (h : x ≤ (M : ℚ) * 2 ^ (ilog2 x - 23)) : round x ≤ (M : ℚ) * 2 ^ (ilog2 x - 23) := by
  have hp : (0 : ℚ) < 2 ^ (ilog2 x - 23) := zpow_pos (by norm_num) _
  rw [round_of_ne_zero x hx]
  refine mul_le_mul_of_nonneg_right ?_ (le_of_lt hp)
  exact_mod_cast rne_le _ M ((div_le_iff₀ hp).mpr h)

/-- A value on the grid of its own binade is a binary32 value. -/
theorem round_of_grid (x : ℚ) (hx : x ≠ 0) (M : ℤ)
    (h : x = (M : ℚ) * 2 ^ (ilog2 x - 23)) : round x = x :=
  le_antisymm ((round_le_grid x hx M (le_of_eq h)).trans (le_of_eq h.symm))
    ((le_of_eq h).trans (grid_le_round x hx M (le_of_eq h.symm)))

/-- The grid step written with a natural exponent, for a binade below `2^24`. -/
theorem grid_step_inv (k : ℤ) (hk : k ≤ 23) :
    ∃ j : ℕ, (2 : ℚ) ^ (k - 23) * 2 ^ j = 1 := by
  obtain ⟨j, hj⟩ := Int.exists_eq_neg_ofNat (show k - 23 ≤ 0 by omega)
  refine ⟨j, ?_⟩
  rw [hj, zpow_neg, zpow_natCast]
  exact inv_mul_cancel₀ (pow_ne_zero j (by norm_num))

/-- A natural number is on the grid of every binade below `2^24`. -/
theorem nat_on_grid (N : ℕ) (k : ℤ) (hk : k ≤ 23) :
    ∃ M : ℤ, (N : ℚ) = (M : ℚ) * 2 ^ (k - 23) := by
  obtain ⟨j, hj⟩ := grid_step_inv k hk
  refine ⟨(N : ℤ) * 2 ^ j, ?_⟩
  push_cast
  rw [mul_assoc, mul_comm ((2 : ℚ) ^ j), hj, mul_one]

/-- The binary exponent of a positive value below `2^24` is at most 23. -/
theorem ilog2_le_of_lt (x : ℚ) (hx : 0 < x) (h : x < 2 ^ 24) : ilog2 x ≤ 23 := by
  have h1 := (ilog2_spec x (ne_of_gt hx)).1
  rw [abs_of_pos hx] at h1
  have h2 : (2 : ℚ) ^ ilog2 x < (2 : ℚ) ^ (24 : ℤ) := lt_of_le_of_lt h1 (by exact_mod_cast h)
  have := (zpow_lt_zpow_iff_right₀ (by norm_num : (1 : ℚ) < 2)).mp h2
  omega

/-- A natural number up to `2^24` is a binary32 value. -/
theorem ofNat_of_le (N : ℕ) (hN : N ≤ 2 ^ 24) : ofNat N = N := by
  rcases Nat.eq_zero_or_pos N with h0 | hpos
  · rw [h0]; simp [ofNat, round]
  rcases Nat.lt_or_ge N (2 ^ 24) with hlt | hge
  · have hx : (0 : ℚ) < N := by exact_mod_cast hpos
    have hk := ilog2_le_of_lt N hx (by exact_mod_cast hlt)
    obtain ⟨M, hM⟩ := nat_on_grid N (ilog2 (N : ℚ)) hk
    exact round_of_grid N (ne_of_gt hx) M hM
  · have : N = 2 ^ 24 := le_antisymm hN hge
    rw [this]
    decide!

/-- A positive value is rounded to at least the power of two that opens its binade. -/
theorem zpow_ilog2_le_round (x : ℚ) (hx : 0 < x) : (2 : ℚ) ^ ilog2 x ≤ round x := by
  have h1 := (ilog2_spec x (ne_of_gt hx)).1
  rw [abs_of_pos hx] at h1
  have e : ((2 ^ 23 : ℤ) : ℚ) * 2 ^ (ilog2 x - 23) = 2 ^ ilog2 x := by
    rw [zpow_sub₀ (by norm_num : (2 : ℚ) ≠ 0)]
    norm_num
    ring
  have := grid_le_round x (ne_of_gt hx) (2 ^ 23) (by rw [e]; exact h1)
  rwa [e] at this

/-- A positive value is rounded to a positive value. -/
theorem round_pos (x : ℚ) (hx : 0 < x) : 0 < round x :=
  lt_of_lt_of_le (zpow_pos (by norm_num) _) (zpow_ilog2_le_round x hx)

/-- Rounding keeps a natural lower bound up to `2^24`. -/
theorem nat_le_round (N : ℕ) (hN : N ≤ 2 ^ 24) (x : ℚ) (hx : 0 < x) (h : (N : ℚ) ≤ x) :
    (N : ℚ) ≤ round x := by
  by_cases hk : ilog2 x ≤ 23
  · obtain ⟨M, hM⟩ := nat_on_grid N (ilog2 x) hk
    rw [hM] at h ⊢
    exact grid_le_round x (ne_of_gt hx) M h
  · have h24 : (2 : ℚ) ^ (24 : ℤ) ≤ 2 ^ ilog2 x :=
      (zpow_le_zpow_iff_right₀ (by norm_num : (1 : ℚ) < 2)).mpr (by omega)
    have hN' : (N : ℚ) ≤ 2 ^ (24 : ℤ) := by exact_mod_cast hN
    exact hN'.trans (h24.trans (zpow_ilog2_le_round x hx))

/-- Rounding keeps a natural upper bound up to `2^24`. -/
theorem round_le_nat (N : ℕ) (hN : N ≤ 2 ^ 24) (x : ℚ) (hx : 0 < x) (h : x ≤ (N : ℚ)) :
    round x ≤ (N : ℚ) := by
  have hN' : (N : ℚ) ≤ 2 ^ 24 := by exact_mod_cast hN
  rcases lt_or_eq_of_le (h.trans hN') with hlt | heq
  · obtain ⟨M, hM⟩ := nat_on_grid N (ilog2 x) (ilog2_le_of_lt x hx hlt)
    rw [hM] at h ⊢
    exact round_le_grid x (ne_of_gt hx) M h
  · have hNe : (N : ℚ) = 2 ^ 24 := le_antisymm hN' (heq ▸ h)
    rw [heq, hNe]
    exact le_of_eq (by decide!)

/-- A value strictly between two consecutive natural numbers, far enough above the lower
one for the grid of its binade, is rounded above the lower one. -/
theorem nat_lt_round (n : ℕ) (x : ℚ) (hx : 0 < x) (hk : ilog2 x ≤ 23)
    (h : (n : ℚ) + 2 ^ (ilog2 x - 24) < x) : (n : ℚ) < round x := by
  obtain ⟨M, hM⟩ := nat_on_grid n (ilog2 x) hk
  have hp : (0 : ℚ) < 2 ^ (ilog2 x - 23) := zpow_pos (by norm_num) _
  have hhalf : (2 : ℚ) ^ (ilog2 x - 24) = 1 / 2 * 2 ^ (ilog2 x - 23) := by
    rw [show ilog2 x - 24 = ilog2 x - 23 - 1 by ring, zpow_sub_one₀ (by norm_num : (2 : ℚ) ≠ 0)]
    ring
  have hy : (M : ℚ) + 1 / 2 < x / 2 ^ (ilog2 x - 23) := by
    rw [lt_div_iff₀ hp, add_mul, ← hM, ← hhalf]
    exact h
  have hr := lt_rne _ M hy
  rw [round_of_ne_zero x (ne_of_gt hx), hM]
  refine mul_lt_mul_of_pos_right ?_ hp
  have : M < rne (x / 2 ^ (ilog2 x - 23)) := by omega
  exact_mod_cast this

/-- Zero is a binary32 value. -/
theorem round_zero : round 0 = 0 := by
  simp [round]

/-- Halving commutes with rounding: only the exponent changes. -/
theorem round_half (x : ℚ) : round (x / 2) = round x / 2 := by
  rcases eq_or_ne x 0 with h0 | hx
  · rw [h0]; simp [round]
  have hx2 : x / 2 ≠ 0 := div_ne_zero hx (by norm_num)
  obtain ⟨h1, h2⟩ := ilog2_spec x hx
  have hk : ilog2 (x / 2) = ilog2 x - 1 := by
    apply ilog2_unique
    · rw [abs_div, abs_two, zpow_sub_one₀ (by norm_num : (2 : ℚ) ≠ 0)]
      rw [div_eq_mul_inv]
      exact mul_le_mul_of_nonneg_right h1 (by norm_num)
    · rw [abs_div, abs_two, sub_add_cancel, div_lt_iff₀ (by norm_num : (0 : ℚ) < 2)]
      rw [zpow_add_one₀ (by norm_num : (2 : ℚ) ≠ 0)] at h2
      exact h2
  rw [round_of_ne_zero _ hx2, round_of_ne_zero _ hx, hk]
  have he : (2 : ℚ) ^ (ilog2 x - 1 - 23) = 2 ^ (ilog2 x - 23) / 2 := by
    rw [show ilog2 x - 1 - 23 = ilog2 x - 23 - 1 by ring,
      zpow_sub_one₀ (by norm_num : (2 : ℚ) ≠ 0), div_eq_mul_inv]
  have hp : (2 : ℚ) ^ (ilog2 x - 23) ≠ 0 := zpow_ne_zero _ (by norm_num)
  rw [he]
  have hy : x / 2 / (2 ^ (ilog2 x - 23) / 2) = x / 2 ^ (ilog2 x - 23) := by
    field_simp
  rw [hy]
  ring

/-- An integer of at most 24 bits times a power of two is a binary32 value. -/
theorem round_int_mul_zpow (m e : ℤ) (hm : |m| ≤ 2 ^ 24) :
    round ((m : ℚ) * 2 ^ e) = (m : ℚ) * 2 ^ e := by
  rcases eq_or_ne m 0 with h0 | hm0
  · rw [h0]; simp [round]
  have hpe : (0 : ℚ) < 2 ^ e := zpow_pos (by norm_num) _
  have hv : (m : ℚ) * 2 ^ e ≠ 0 := mul_ne_zero (by exact_mod_cast hm0) (ne_of_gt hpe)
  obtain ⟨h1, _⟩ := ilog2_spec _ hv
  have habs : |(m : ℚ) * 2 ^ e| = (|m| : ℤ) * 2 ^ e := by
    rw [abs_mul, abs_of_pos hpe, Int.cast_abs]
  have hmq : ((|m| : ℤ) : ℚ) ≤ 2 ^ (24 : ℤ) := by exact_mod_cast hm
  have hle : (2 : ℚ) ^ ilog2 ((m : ℚ) * 2 ^ e) ≤ 2 ^ (24 + e) := by
    rw [zpow_add₀ (by norm_num : (2 : ℚ) ≠ 0)]
    rw [habs] at h1
    exact h1.trans (mul_le_mul_of_nonneg_right hmq (le_of_lt hpe))
  have hk := (zpow_le_zpow_iff_right₀ (by norm_num : (1 : ℚ) < 2)).mp hle
  rcases lt_or_eq_of_le hk with hlt | heq
  · -- the grid of the binade is at least as fine as `2^e`
    obtain ⟨j, hj⟩ := Int.eq_ofNat_of_zero_le
      (show 0 ≤ e - (ilog2 ((m : ℚ) * 2 ^ e) - 23) by omega)
    refine round_of_grid _ hv (m * 2 ^ j) ?_
    have he : e = (j : ℤ) + (ilog2 ((m : ℚ) * 2 ^ e) - 23) := by omega
    conv_lhs => rw [he]
    rw [zpow_add₀ (by norm_num : (2 : ℚ) ≠ 0), zpow_natCast]
    push_cast
    ring
  · -- the magnitude is `2^24` exactly
    have hfull : (2 : ℚ) ^ (24 + e) ≤ (|m| : ℤ) * 2 ^ e := by
      rw [← heq, ← habs]; exact h1
    rw [zpow_add₀ (by norm_num : (2 : ℚ) ≠ 0)] at hfull
    have hge : (2 : ℚ) ^ (24 : ℤ) ≤ ((|m| : ℤ) : ℚ) := le_of_mul_le_mul_right hfull hpe
    have hge' : (2 : ℤ) ^ 24 ≤ |m| := by exact_mod_cast hge
    have hmabs : |m| = 2 ^ 24 := le_antisymm hm hge'
    have heven : m = 2 * (m / 2) := by
      rcases abs_eq (by norm_num : (0 : ℤ) ≤ 2 ^ 24) |>.mp hmabs with h | h <;> rw [h] <;> norm_num
    refine round_of_grid _ hv (m / 2) ?_
    rw [heq, show 24 + e - 23 = e + 1 by ring, zpow_add_one₀ (by norm_num : (2 : ℚ) ≠ 0)]
    conv_lhs => rw [heven]
    push_cast
    ring

/-- Rounding is idempotent: the result of an operation is a binary32 value. -/
theorem round_round (x : ℚ) : round (round x) = round x := by
  rcases eq_or_ne x 0 with h0 | hx
  · rw [h0]; simp [round]
  rw [round_of_ne_zero x hx]
  apply round_int_mul_zpow
  obtain ⟨_, h2⟩ := ilog2_spec x hx
  have hp : (0 : ℚ) < 2 ^ (ilog2 x - 23) := zpow_pos (by norm_num) _
  have hy : |x / 2 ^ (ilog2 x - 23)| < 2 ^ (24 : ℤ) := by
    rw [abs_div, abs_of_pos hp, div_lt_iff₀ hp, ← zpow_add₀ (by norm_num : (2 : ℚ) ≠ 0)]
    rw [show (24 : ℤ) + (ilog2 x - 23) = ilog2 x + 1 by ring]
    exact h2
  obtain ⟨hlo, hhi⟩ := abs_lt.mp hy
  have a := rne_le (x / 2 ^ (ilog2 x - 23)) (2 ^ 24) (by push_cast; exact le_of_lt (by exact_mod_cast hhi))
  have b := le_rne (x / 2 ^ (ilog2 x - 23)) (-(2 ^ 24)) (by push_cast; exact le_of_lt (by exact_mod_cast hlo))
  exact abs_le.mpr ⟨b, a⟩

/-- The `float` value of `(a + b) / 2` is the binary32 value nearest to the exact
midpoint. -/
theorem div_add_two (a b : ℚ) : div (add a b) 2 = round ((a + b) / 2) := by
  unfold add div
  rw [round_half (round (a + b)), round_round, round_half (a + b)]

/-- The interpolation at `t = 1/2`: the sum of the two halves is the float value of
`(a + b) / 2`. -/
theorem add_halves (a b : ℚ) (ha : isFloat a) (hb : isFloat b) :
    add (mul (1 / 2) a) (mul (1 / 2) b) = div (add a b) 2 := by
  unfold isFloat at ha hb
  unfold add mul div
  rw [show (1 : ℚ) / 2 * a = a / 2 by ring, show (1 : ℚ) / 2 * b = b / 2 by ring,
    round_half a, round_half b, ha, hb, round_half (round (a + b)), round_round,
    show a / 2 + b / 2 = (a + b) / 2 by ring, round_half (a + b)]

end F32

namespace Assignment4

/-! ## The value of `count` -/

/-- Up to `2^24` pixels the `float` computation of `count` is exact: `count` is the
quotient `total / threads` rounded up. -/
theorem workerCount_eq (total T : Nat) (hT : 1 ≤ T) (h0 : 1 ≤ total) (h24 : total ≤ 2 ^ 24) :
    workerCount total T = (total + T - 1) / T := by
  have htot : F32.ofNat total = total := F32.ofNat_of_le total h24
  have hTq : (0 : ℚ) < T := by exact_mod_cast hT
  have htq : (0 : ℚ) < total := by exact_mod_cast h0
  have hT'pos : 0 < F32.ofNat T := F32.round_pos T hTq
  unfold workerCount F32.ceil F32.div
  rw [htot]
  have hqpos : (0 : ℚ) < (total : ℚ) / F32.ofNat T := div_pos htq hT'pos
  rcases Nat.lt_or_ge total T with hlt | hge
  · -- fewer pixels than workers: the quotient is at most 1
    have hle : (total : ℚ) ≤ F32.ofNat T := by
      rcases Nat.lt_or_ge T (2 ^ 24) with hTs | hTl
      · rw [F32.ofNat_of_le T (le_of_lt hTs)]
        exact_mod_cast le_of_lt hlt
      · have h1 : ((2 ^ 24 : ℕ) : ℚ) ≤ F32.ofNat T :=
          F32.nat_le_round (2 ^ 24) (le_refl _) T hTq (by exact_mod_cast hTl)
        have h2 : (total : ℚ) ≤ ((2 ^ 24 : ℕ) : ℚ) := by exact_mod_cast h24
        exact h2.trans h1
    have hq1 : (total : ℚ) / F32.ofNat T ≤ ((1 : ℕ) : ℚ) := by
      rw [Nat.cast_one]
      exact (div_le_one hT'pos).mpr hle
    have hup := F32.round_le_nat 1 (by norm_num) _ hqpos hq1
    have hlo := F32.round_pos _ hqpos
    have hceil : ⌈F32.round ((total : ℚ) / F32.ofNat T)⌉ = 1 := by
      rw [Int.ceil_eq_iff]
      constructor
      · simpa using hlo
      · simpa using hup
    rw [hceil, show (1 : ℤ).toNat = 1 from rfl]
    symm
    exact Nat.div_eq_of_lt_le (by omega) (by omega)
  · -- at least as many pixels as workers
    have hTle : T ≤ 2 ^ 24 := by omega
    rw [F32.ofNat_of_le T hTle] at hqpos ⊢
    have hdm : T * (total / T) + total % T = total := Nat.div_add_mod total T
    have hr : total % T < T := Nat.mod_lt total hT
    generalize total / T = n at hdm
    generalize total % T = r at hdm hr
    have hq : (total : ℚ) / T = n + (r : ℚ) / T := by
      rw [← hdm]
      push_cast
      field_simp
      ring
    rcases Nat.eq_zero_or_pos r with hr0 | hrpos
    · -- the quotient is a natural number
      have hqn : (total : ℚ) / T = n := by rw [hq, hr0]; simp
      have hn24 : n ≤ 2 ^ 24 := by
        have : n ≤ T * n := Nat.le_mul_of_pos_left n hT
        omega
      have hrn : F32.round (n : ℚ) = n := F32.ofNat_of_le n hn24
      rw [hqn, hrn, Int.ceil_natCast, Int.toNat_ofNat]
      symm
      refine Nat.div_eq_of_lt_le ?_ ?_
      · rw [← hdm, hr0, Nat.mul_comm]; omega
      · rw [← hdm, hr0, Nat.add_mul, Nat.mul_comm T n]; omega
    · -- the quotient lies strictly between `n` and `n + 1`
      have hfrac_pos : (0 : ℚ) < (r : ℚ) / T := div_pos (by exact_mod_cast hrpos) hTq
      have hfrac_lt : (r : ℚ) / T < 1 := (div_lt_one hTq).mpr (by exact_mod_cast hr)
      have hT2 : 2 ≤ T := by omega
      have hn1 : n + 1 ≤ 2 ^ 24 := by
        have : 2 * n ≤ T * n := Nat.mul_le_mul_right n hT2
        omega
      have hqlt : (total : ℚ) / T ≤ ((n + 1 : ℕ) : ℚ) := by
        rw [hq]; push_cast; linarith
      have hup := F32.round_le_nat (n + 1) hn1 _ hqpos hqlt
      have hq24 : (total : ℚ) / T < 2 ^ 24 := by
        have : ((n + 1 : ℕ) : ℚ) ≤ 2 ^ 24 := by exact_mod_cast hn1
        rw [hq]; push_cast at this; linarith
      have hk := F32.ilog2_le_of_lt _ hqpos hq24
      have hspec := (F32.ilog2_spec _ (ne_of_gt hqpos)).1
      rw [abs_of_pos hqpos] at hspec
      have hstrict : (2 : ℚ) ^ F32.ilog2 ((total : ℚ) / T) < (total : ℚ) / T := by
        refine lt_of_le_of_ne hspec fun heq => ?_
        have hupper := (F32.ilog2_spec _ (ne_of_gt hqpos)).2
        rw [abs_of_pos hqpos] at hupper
        have hn0 : 1 ≤ n := by
          rcases Nat.eq_zero_or_pos n with hn | hn
          · rw [hn] at hdm; omega
          · exact hn
        have hq1 : (2 : ℚ) ^ (0 : ℤ) < 2 ^ (F32.ilog2 ((total : ℚ) / T) + 1) := by
          have h1n : (1 : ℚ) ≤ n := by exact_mod_cast hn0
          have h1q : (1 : ℚ) ≤ (total : ℚ) / T := by rw [hq]; linarith
          rw [zpow_zero]
          linarith
        have hk0 := (zpow_lt_zpow_iff_right₀ (by norm_num : (1 : ℚ) < 2)).mp hq1
        obtain ⟨j, hj⟩ := Int.eq_ofNat_of_zero_le (show 0 ≤ F32.ilog2 ((total : ℚ) / T) by omega)
        rw [hj, zpow_natCast, hq] at heq
        have hz1 : (0 : ℚ) < (((2 ^ j : ℕ) : ℤ) - (n : ℤ) : ℤ) := by push_cast; linarith
        have hz2 : ((((2 ^ j : ℕ) : ℤ) - (n : ℤ) : ℤ) : ℚ) < 1 := by push_cast; linarith
        have hz1' : (0 : ℤ) < ((2 ^ j : ℕ) : ℤ) - (n : ℤ) := by exact_mod_cast hz1
        have hz2' : ((2 ^ j : ℕ) : ℤ) - (n : ℤ) < 1 := by exact_mod_cast hz2
        omega
      have hstep : (2 : ℚ) ^ (F32.ilog2 ((total : ℚ) / T) - 24) < (r : ℚ) / T := by
        rw [zpow_sub₀ (by norm_num : (2 : ℚ) ≠ 0), lt_div_iff₀ hTq, div_mul_eq_mul_div,
          div_lt_iff₀ (zpow_pos (by norm_num) _)]
        have h1 : (2 : ℚ) ^ F32.ilog2 ((total : ℚ) / T) * T < total := by
          have := mul_lt_mul_of_pos_right hstrict hTq
          rwa [div_mul_cancel₀ _ (ne_of_gt hTq)] at this
        have h2 : (total : ℚ) ≤ 2 ^ (24 : ℤ) := by exact_mod_cast h24
        have h3 : (1 : ℚ) ≤ r := by exact_mod_cast hrpos
        have h4 : (0 : ℚ) < 2 ^ (24 : ℤ) := by norm_num
        nlinarith
      have hlo := F32.nat_lt_round n _ hqpos hk (by rw [hq] at hstep ⊢; linarith)
      have hceil : ⌈F32.round ((total : ℚ) / T)⌉ = ((n + 1 : ℕ) : ℤ) := by
        rw [Int.ceil_eq_iff]
        constructor
        · push_cast; simpa using hlo
        · exact_mod_cast hup
      rw [hceil, Int.toNat_ofNat]
      symm
      refine Nat.div_eq_of_lt_le ?_ ?_
      · rw [← hdm, Nat.add_mul, Nat.mul_comm T n]; omega
      · rw [← hdm, Nat.add_mul, Nat.add_mul, Nat.mul_comm T n]; omega

end Assignment4

namespace Assignment4

/-! ## The escape-time evaluator -/

/-- The loop started on `z_i` reports the in-set result when none of the `remaining` values
it checks is longer than 2. -/
theorem evaluateLoop_inSet (c : Complex) : ∀ (remaining i : Nat),
    (∀ m, m < remaining → ¬ 2 < (orbit c (i + m)).length) →
    evaluateLoop c remaining i (orbit c i) = (true, 0)
  | 0, _, _ => rfl
  | r + 1, i, h => by
    have h0 : ¬ 2 < (orbit c i).length := by simpa using h 0 (Nat.succ_pos r)
    have hrec := evaluateLoop_inSet c r (i + 1) (fun m hm => by
      have hm1 := h (m + 1) (by omega)
      rwa [show i + (m + 1) = i + 1 + m by omega] at hm1)
    rw [evaluateLoop, if_neg h0]
    exact hrec

/-- The loop started on `z_i` reports `i + n + 1` when `z_{i+n}` is the first value longer
than 2 and it is among the `remaining` values checked. -/
theorem evaluateLoop_escape (c : Complex) : ∀ (remaining i n : Nat), n < remaining →
    2 < (orbit c (i + n)).length →
    (∀ m, m < n → ¬ 2 < (orbit c (i + m)).length) →
    evaluateLoop c remaining i (orbit c i) = (false, i + n + 1)
  | 0, _, _, hn, _, _ => absurd hn (Nat.not_lt_zero _)
  | r + 1, i, 0, _, hgt, _ => by
    rw [evaluateLoop, if_pos (by simpa using hgt)]
  | r + 1, i, n + 1, hn, hgt, hfirst => by
    have h0 : ¬ 2 < (orbit c i).length := by simpa using hfirst 0 (Nat.succ_pos n)
    have hrec := evaluateLoop_escape c r (i + 1) n (by omega)
      (by rwa [show i + 1 + n = i + (n + 1) by omega])
      (fun m hm => by
        have hm1 := hfirst (m + 1) (by omega)
        rwa [show i + (m + 1) = i + 1 + m by omega] at hm1)
    rw [evaluateLoop, if_neg h0]
    rw [show i + (n + 1) + 1 = i + 1 + n + 1 by omega]
    exact hrec

/-- When some checked value is longer than 2, the result is `(false, n + 1)` for the first
such index `n`. -/
theorem evaluatePoint_of_exists (c : Complex) (cap : Nat)
    (h : ∃ n, n < cap ∧ 2 < (orbit c n).length) :
    ∃ n, n < cap ∧ 2 < (orbit c n).length ∧ (∀ m, m < n → ¬ 2 < (orbit c m).length) ∧
      evaluatePoint c cap = (false, n + 1) := by
  classical
  have hex : ∃ n, 2 < (orbit c n).length := h.elim fun n hn => ⟨n, hn.2⟩
  obtain ⟨n0, hn0, hgt0⟩ := h
  have hle : Nat.find hex ≤ n0 := Nat.find_min' hex hgt0
  refine ⟨Nat.find hex, by omega, Nat.find_spec hex, fun m hm => Nat.find_min hex hm, ?_⟩
  have := evaluateLoop_escape c cap 0 (Nat.find hex) (by omega)
    (by simpa using Nat.find_spec hex) (fun m hm => by simpa using Nat.find_min hex hm)
  simpa [evaluatePoint, orbit] using this

/-- C3 (as amended): when `n < cap` is the smallest index with `|z_n| > 2`, `evaluatePoint`
reports the point as escaped with the count `n + 1`. -/
theorem evaluatePoint_first_escape (c : Complex) (cap n : Nat) (hn : n < cap)
    (hgt : 2 < (orbit c n).length) (hfirst : ∀ m, m < n → ¬ 2 < (orbit c m).length) :
    evaluatePoint c cap = (false, n + 1) := by
  have := evaluateLoop_escape c cap 0 n hn (by simpa using hgt)
    (fun m hm => by simpa using hfirst m hm)
  simpa [evaluatePoint, orbit] using this

/-- C3, witness: the point `(2, 2)` with cap 2 has its first long value at index 1 and is
reported with the count 2. -/
theorem evaluatePoint_first_escape_witness :
    evaluatePoint ⟨2, 2⟩ 2 = (false, 1 + 1) :=
  evaluatePoint_first_escape ⟨2, 2⟩ 2 1 (by decide) (by decide!)
    (fun m hm => by
      have : m = 0 := by omega
      subst this
      decide!)

/-- C3, counterexample: for `c = (2, 2)` and cap 2 the smallest index with `|z_n| > 2` is
`n = 1`, yet the reported count is 2, not 1. -/
theorem evaluatePoint_two_two :
    (1 < 2 ∧ 2 < (orbit ⟨2, 2⟩ 1).length ∧ ¬ 2 < (orbit ⟨2, 2⟩ 0).length) ∧
      evaluatePoint ⟨2, 2⟩ 2 = (false, 2) ∧ evaluatePoint ⟨2, 2⟩ 2 ≠ (false, 1) := by
  decide!

/-- C4 (as amended): with `z_n` the values of the recurrence computed in `float` and `|z_n|`
the value of `z_n.length()` as the code computes it (the `float` square root of the `float`
sum of the `float` squares), `evaluatePoint` returns the in-set result `(true, 0)` exactly
when `|z_n| ≤ 2` for every `n < cap`, and an escaped result `(false, _)` exactly when
`|z_n| > 2` for some `n < cap`. -/
theorem evaluatePoint_inSet_iff (c : Complex) (cap : Nat) :
    (evaluatePoint c cap = (true, 0) ↔ ∀ n, n < cap → (orbit c n).length ≤ 2) ∧
      ((evaluatePoint c cap).1 = false ↔ ∃ n, n < cap ∧ 2 < (orbit c n).length) := by
  have hin : (∀ n, n < cap → (orbit c n).length ≤ 2) → evaluatePoint c cap = (true, 0) := by
    intro h
    have := evaluateLoop_inSet c cap 0 (fun m hm => by simpa using not_lt.mpr (h m hm))
    simpa [evaluatePoint, orbit] using this
  constructor
  · constructor
    · intro h n hn
      by_contra hgt
      obtain ⟨k, _, _, _, hk⟩ := evaluatePoint_of_exists c cap ⟨n, hn, not_le.mp hgt⟩
      rw [hk] at h
      simp at h
    · exact hin
  · constructor
    · intro h
      by_contra hno
      have hall : ∀ n, n < cap → (orbit c n).length ≤ 2 := fun n hn =>
        not_lt.mp fun hgt => hno ⟨n, hn, hgt⟩
      rw [hin hall] at h
      simp at h
    · intro h
      obtain ⟨k, _, _, _, hk⟩ := evaluatePoint_of_exists c cap h
      rw [hk]

/-- C4, counterexample: for `c = (2, 2^-13)` and cap 2 the value `z_1` is `c`, whose exact
magnitude is above 2 since `2^2 + (2^-13)^2 > 2^2`, and `1 < cap`; the sum of the squares
is rounded to 4, the computed length of `z_1` is 2, which is not above 2, and
`evaluatePoint` returns the in-set result. -/
theorem evaluatePoint_misses_escape :
    orbit ⟨2, 1 / 2 ^ 13⟩ 1 = ⟨2, 1 / 2 ^ 13⟩ ∧
      (2 : ℚ) ^ 2 < (orbit ⟨2, 1 / 2 ^ 13⟩ 1).real ^ 2 + (orbit ⟨2, 1 / 2 ^ 13⟩ 1).im ^ 2 ∧
      (orbit ⟨2, 1 / 2 ^ 13⟩ 1).length = 2 ∧ 1 < 2 ∧
      evaluatePoint ⟨2, 1 / 2 ^ 13⟩ 2 = (true, 0) := by
  decide!

end Assignment4

namespace Assignment4

/-! ## The palette scan -/

/-- The scan invariant: started at a valid index `k` with enough fuel to reach the end of
the palette, the loop stops at a valid index `r ≥ k`, every threshold it stepped over is
below `power`, and at `r` the loop condition is false. -/
theorem scanLoop_spec (palette : List (Nat × Color3f)) (power : ℚ) : ∀ (fuel k : Nat),
    k < palette.length → palette.length ≤ k + fuel →
    k ≤ scanLoop palette power fuel k ∧ scanLoop palette power fuel k < palette.length ∧
    (∀ j, k ≤ j → j < scanLoop palette power fuel k →
      F32.ofNat (threshold palette j) < power) ∧
    (scanLoop palette power fuel k + 1 = palette.length ∨
      ¬ F32.ofNat (threshold palette (scanLoop palette power fuel k)) < power)
  | 0, k, hk, hfuel => by omega
  | fuel + 1, k, hk, hfuel => by
    by_cases hc : k + 1 < palette.length ∧ F32.ofNat (threshold palette k) < power
    · obtain ⟨h1, h2, h3, h4⟩ := scanLoop_spec palette power fuel (k + 1) hc.1 (by omega)
      rw [scanLoop, if_pos hc]
      refine ⟨by omega, h2, fun j hkj hj => ?_, h4⟩
      by_cases hjk : j = k
      · rw [hjk]; exact hc.2
      · exact h3 j (by omega) hj
    · rw [scanLoop, if_neg hc]
      refine ⟨le_refl k, hk, fun j hkj hj => by omega, ?_⟩
      by_cases hlast : k + 1 < palette.length
      · exact Or.inr fun hlt => hc ⟨hlast, hlt⟩
      · exact Or.inl (by omega)

/-- C7: for a non-empty palette the scan stops at a valid index `k`; every control point
before `k` has its threshold (converted to `float`, as the comparison does) below `power`,
and either the threshold of `k` is at least `power`, so that `k` is the smallest index whose
threshold is at least `power`, or `k` is the last index `size - 1` and no threshold is at
least `power`. -/
theorem paletteScan_spec (palette : List (Nat × Color3f)) (power : ℚ) (h : palette ≠ []) :
    paletteScan palette power < palette.length ∧
    (∀ j, j < paletteScan palette power → F32.ofNat (threshold palette j) < power) ∧
    (power ≤ F32.ofNat (threshold palette (paletteScan palette power)) ∨
      (paletteScan palette power = palette.length - 1 ∧
        ∀ j, j < palette.length → F32.ofNat (threshold palette j) < power)) := by
  have hlen : 0 < palette.length := List.length_pos.mpr h
  obtain ⟨_, h2, h3, h4⟩ := scanLoop_spec palette power palette.length 0 hlen (by omega)
  refine ⟨h2, fun j hj => h3 j (Nat.zero_le j) hj, ?_⟩
  by_cases hle : power ≤ F32.ofNat (threshold palette (paletteScan palette power))
  · exact Or.inl hle
  · have hlt := not_le.mp hle
    have hend : paletteScan palette power + 1 = palette.length := by
      rcases h4 with h4 | h4
      · exact h4
      · exact absurd hlt h4
    refine Or.inr ⟨by omega, fun j hj => ?_⟩
    by_cases hj2 : j < paletteScan palette power
    · exact h3 j (Nat.zero_le j) hj2
    · have : j = paletteScan palette power := by omega
      rw [this]; exact hlt

/-- C7, witness: the shipped palette scanned for `power = 5`. -/
theorem paletteScan_spec_witness :
    paletteScan shippedColors.colorPalette 5 < shippedColors.colorPalette.length ∧
    (∀ j, j < paletteScan shippedColors.colorPalette 5 →
      F32.ofNat (threshold shippedColors.colorPalette j) < 5) ∧
    (5 ≤ F32.ofNat (threshold shippedColors.colorPalette
        (paletteScan shippedColors.colorPalette 5)) ∨
      (paletteScan shippedColors.colorPalette 5 = shippedColors.colorPalette.length - 1 ∧
        ∀ j, j < shippedColors.colorPalette.length →
          F32.ofNat (threshold shippedColors.colorPalette j) < 5)) :=
  paletteScan_spec shippedColors.colorPalette 5 (by simp [shippedColors])

/-- The scan does not move when `power` is not above the first threshold. -/
theorem paletteScan_eq_zero (first : Nat × Color3f) (rest : List (Nat × Color3f)) (power : ℚ)
    (hp : power ≤ F32.ofNat first.1) : paletteScan (first :: rest) power = 0 := by
  have hc : ¬ (0 + 1 < (first :: rest).length ∧
      F32.ofNat (threshold (first :: rest) 0) < power) := by
    intro hc
    have : F32.ofNat first.1 < power := by simpa [threshold] using hc.2
    exact absurd hp (not_le.mpr this)
  rw [paletteScan, List.length_cons, scanLoop, if_neg hc]

/-- C8: for a non-empty palette `first :: rest` and a sample that escaped at `iteration`
with `power = log2(iteration)` not above the first threshold, the colour computed is the
first control point's colour itself. -/
theorem sampleColor_below_first (lg : ℚ → ℚ) (first : Nat × Color3f)
    (rest : List (Nat × Color3f)) (inSet : Color3f) (iteration : Nat)
    (hp : lg (F32.ofNat iteration) ≤ F32.ofNat first.1) :
    sampleColor lg ⟨first :: rest, inSet⟩ (false, iteration) = some first.2 := by
  simp [sampleColor, escapedColor, paletteScan_eq_zero first rest _ hp]

/-- C8, witness: a sample with `power = 0` against the shipped palette, whose first
threshold is 0. -/
theorem sampleColor_below_first_witness :
    sampleColor (fun _ => 0) ⟨(0, ⟨0, F32.round (8 / 100), 1 / 4⟩) :: [(10, ⟨1, 1, 1⟩)], ⟨0, 0, 0⟩⟩
      (false, 1) = some ⟨0, F32.round (8 / 100), 1 / 4⟩ :=
  sampleColor_below_first (fun _ => 0) (0, ⟨0, F32.round (8 / 100), 1 / 4⟩) [(10, ⟨1, 1, 1⟩)]
    ⟨0, 0, 0⟩ 1 (by decide!)

end Assignment4

namespace Assignment4

/-! ## The tile worker and the dispatcher -/

/-- The byte found at offset `b` after the three stores for index `i`, when the offsets of
the index do not wrap. -/
theorem writePixel_apply (image : Image) (i : Nat) (bytes : Nat × Nat × Nat) (b : Nat)
    (hi : 3 * i + 3 ≤ 2 ^ 64) :
    writePixel image i bytes b = if b / 3 = i then byteOf bytes (b % 3) else image b := by
  have h0 : (3 * i) % 2 ^ 64 = 3 * i := Nat.mod_eq_of_lt (by omega)
  have h1 : (3 * i + 1) % 2 ^ 64 = 3 * i + 1 := Nat.mod_eq_of_lt (by omega)
  have h2 : (3 * i + 2) % 2 ^ 64 = 3 * i + 2 := Nat.mod_eq_of_lt (by omega)
  rw [writePixel, h0, h1, h2]
  simp only [Function.update_apply, byteOf]
  split_ifs <;> first | rfl | omega

/-- With a non-empty palette every index gets its three bytes. -/
theorem pixelBytes_isSome (lg : ℚ → ℚ) (colors : Colors) (width height : Nat) (cam : Camera)
    (iterations i : Nat) (h : colors.colorPalette ≠ []) :
    ∃ bytes, pixelBytes lg colors width height cam iterations i = some bytes := by
  obtain ⟨first, rest, hpal⟩ := List.exists_cons_of_ne_nil h
  simp only [pixelBytes, pixelColor, sampleColor, escapedColor, hpal]
  split_ifs <;> simp

/-- The loop of `plotMandelbrotSection` with no index left. -/
theorem sectionLoop_zero (lg : ℚ → ℚ) (colors : Colors) (width height : Nat) (cam : Camera)
    (iterations : Nat) (i : Nat) (image : Image) :
    sectionLoop lg colors width height cam iterations 0 i image = some image := rfl

/-- One turn of the loop of `plotMandelbrotSection`. -/
theorem sectionLoop_succ (lg : ℚ → ℚ) (colors : Colors) (width height : Nat) (cam : Camera)
    (iterations : Nat) (remaining i : Nat) (image : Image) :
    sectionLoop lg colors width height cam iterations (remaining + 1) i image =
      match pixelBytes lg colors width height cam iterations i with
      | none => none
      | some bytes =>
        sectionLoop lg colors width height cam iterations remaining (i + 1)
          (writePixel image i bytes) := rfl

/-- The loop of `plotMandelbrotSection` in closed form, when every index has bytes `B i`
and the byte offsets of the indices do not wrap: the bytes of the `n` indices from `s` on
are replaced, every other byte is kept. -/
theorem sectionLoop_eq (lg : ℚ → ℚ) (colors : Colors) (width height : Nat) (cam : Camera)
    (iterations : Nat) (B : Nat → Nat × Nat × Nat)
    (hB : ∀ i, pixelBytes lg colors width height cam iterations i = some (B i)) :
    ∀ (n s : Nat) (image : Image), (0 < n → 3 * (s + n) ≤ 2 ^ 64) →
      sectionLoop lg colors width height cam iterations n s image =
        some (fun b => if s ≤ b / 3 ∧ b / 3 < s + n then byteOf (B (b / 3)) (b % 3)
          else image b) := by
  intro n
  induction n with
  | zero =>
    intro s image _
    rw [sectionLoop_zero]
    congr 1
    funext b
    rw [if_neg (by omega)]
  | succ n ih =>
    intro s image h64
    have h64 := h64 (Nat.succ_pos n)
    rw [sectionLoop_succ, hB s]
    simp only
    rw [ih (s + 1) _ (fun _ => by omega)]
    congr 1
    funext b
    rw [writePixel_apply image s (B s) b (by omega)]
    split_ifs with h1 h2 h3 <;> first | rfl | omega | rw [h3]

/-- Function `plotMandelbrotSection` in closed form, for a range whose byte offsets do not
wrap. -/
theorem plotMandelbrotSection_eq (lg : ℚ → ℚ) (colors : Colors) (width height : Nat)
    (cam : Camera) (iterations : Nat) (B : Nat → Nat × Nat × Nat)
    (hB : ∀ i, pixelBytes lg colors width height cam iterations i = some (B i))
    (image : Image) (s u : Nat) (h64 : 3 * u ≤ 2 ^ 64) :
    plotMandelbrotSection lg colors image s u width height cam iterations =
      some (fun b => if s ≤ b / 3 ∧ b / 3 < u then byteOf (B (b / 3)) (b % 3) else image b) := by
  rw [plotMandelbrotSection, sectionLoop_eq lg colors width height cam iterations B hB _ _ _
    (fun _ => by omega)]
  congr 1
  funext b
  by_cases h : s ≤ b / 3 ∧ b / 3 < u
  · rw [if_pos h, if_pos (by omega)]
  · rw [if_neg h, if_neg (by omega)]

/-- The workers of `plotMandelbrot`, run one after another in any `order`, in closed form,
when the byte offsets of the image do not wrap: a byte is the pixel's byte when some worker
of `order` iterates its index, and is the initial content otherwise. -/
theorem plotMandelbrotIn_eq (lg : ℚ → ℚ) (colors : Colors) (width height : Nat)
    (cam : Camera) (iterations : Nat) (B : Nat → Nat × Nat × Nat)
    (hB : ∀ i, pixelBytes lg colors width height cam iterations i = some (B i))
    (threads : Nat) (order : List Nat) (image : Image)
    (h64 : 3 * ((width * height) % 2 ^ 64) ≤ 2 ^ 64) :
    plotMandelbrotIn lg colors image order threads width height cam iterations =
      some (fun b =>
        if ∃ k, k ∈ order ∧
            iterates (workerCount ((width * height) % 2 ^ 64) threads)
              ((width * height) % 2 ^ 64) k (b / 3)
        then byteOf (B (b / 3)) (b % 3) else image b) := by
  unfold plotMandelbrotIn
  simp only
  generalize workerCount ((width * height) % 2 ^ 64) threads = count
  generalize (width * height) % 2 ^ 64 = total at h64
  induction order generalizing image with
  | nil => simp
  | cons k rest ih =>
    have hu : 3 * upperBound count total k ≤ 2 ^ 64 :=
      le_trans (Nat.mul_le_mul_left 3 (Nat.min_le_right _ _)) h64
    rw [List.foldlM_cons, plotMandelbrotSection_eq lg colors width height cam iterations B hB
      _ _ _ hu]
    simp only [Option.some_bind, Option.bind_eq_bind]
    rw [ih]
    congr 1
    funext b
    have hk : iterates count total k (b / 3) ↔
        (startIndex count k ≤ b / 3 ∧ b / 3 < upperBound count total k) := Iff.rfl
    by_cases h1 : startIndex count k ≤ b / 3 ∧ b / 3 < upperBound count total k
    · have hex : ∃ j, j ∈ k :: rest ∧ iterates count total j (b / 3) :=
        ⟨k, List.mem_cons_self k rest, hk.mpr h1⟩
      rw [if_pos hex, if_pos h1]
      by_cases hr : ∃ j, j ∈ rest ∧ iterates count total j (b / 3)
      · rw [if_pos hr]
      · rw [if_neg hr]
    · rw [if_neg h1]
      by_cases hr : ∃ j, j ∈ rest ∧ iterates count total j (b / 3)
      · have hex : ∃ j, j ∈ k :: rest ∧ iterates count total j (b / 3) := by
          obtain ⟨j, hj, hit⟩ := hr
          exact ⟨j, List.mem_cons_of_mem k hj, hit⟩
        rw [if_pos hex, if_pos hr]
      · have hex : ¬ ∃ j, j ∈ k :: rest ∧ iterates count total j (b / 3) := by
          rintro ⟨j, hj, hit⟩
          rcases List.mem_cons.mp hj with hj | hj
          · exact h1 (hk.mp (hj ▸ hit))
          · exact hr ⟨j, hj, hit⟩
        rw [if_neg hex, if_neg hr]

/-- C1, at the shipped image size with 7 workers: `count` is computed as 4739657, since the
`float` quotient `33177600 / 7` is rounded to 4739657.0 before `std::ceil` is applied, and
the last index 33177599 is iterated by none of the 7 workers. -/
theorem workers_miss_last_index :
    workerCount ((7680 * 4320) % 2 ^ 64) 7 = 4739657 ∧ 7 * 4739657 < 7680 * 4320 ∧
      ∀ k, k < 7 →
        ¬ iterates (workerCount ((7680 * 4320) % 2 ^ 64) 7) ((7680 * 4320) % 2 ^ 64) k
          33177599 := by
  decide!

/-- C2, at the shipped image size and palette: for some initial content of the buffer the
image produced with 7 workers differs from the image produced with 1 worker, since with 7
workers the bytes of the last pixel keep their initial content. -/
theorem plotMandelbrot_seven_workers_differ (lg : ℚ → ℚ) (cam : Camera) (iterations : Nat) :
    ∃ image img7 img1,
      plotMandelbrot lg shippedColors image 7 7680 4320 cam iterations = some img7 ∧
      plotMandelbrot lg shippedColors image 1 7680 4320 cam iterations = some img1 ∧
      img7 (3 * 33177599) = image (3 * 33177599) ∧
      img7 (3 * 33177599) ≠ img1 (3 * 33177599) := by
  have hsome := fun i => pixelBytes_isSome lg shippedColors 7680 4320 cam iterations i
    (by simp [shippedColors])
  choose B hB using hsome
  have ht : (7680 * 4320) % 2 ^ 64 = 33177600 := by norm_num
  have hc7 : workerCount 33177600 7 = 4739657 := by decide!
  have hc1 : workerCount 33177600 1 = 33177600 := by decide!
  have h7 : ¬ ∃ k, k ∈ List.range 7 ∧ iterates 4739657 33177600 k (3 * 33177599 / 3) := by
    rintro ⟨k, hk, h1, h2⟩
    rw [List.mem_range] at hk
    simp only [startIndex, upperBound] at h1 h2
    omega
  have h1 : ∃ k, k ∈ List.range 1 ∧ iterates 33177600 33177600 k (3 * 33177599 / 3) :=
    ⟨0, by simp, by simp only [iterates, startIndex, upperBound]; omega⟩
  refine ⟨fun _ => if (B 33177599).1 = 0 then 1 else 0, _, _,
    plotMandelbrotIn_eq lg shippedColors 7680 4320 cam iterations B hB 7 (List.range 7) _
      (by norm_num),
    plotMandelbrotIn_eq lg shippedColors 7680 4320 cam iterations B hB 1 (List.range 1) _
      (by norm_num),
    ?_, ?_⟩
  · simp only [ht, hc7]
    rw [if_neg h7]
  · simp only [ht, hc7, hc1]
    rw [if_neg h7, if_pos h1]
    have hb : byteOf (B (3 * 33177599 / 3)) (3 * 33177599 % 3) = (B 33177599).1 := by
      norm_num [byteOf]
    rw [hb]
    split_ifs with h0
    · rw [h0]; decide
    · exact fun h => h0 h.symm

end Assignment4

namespace Assignment4

/-- C5, at the shipped palette: pixel 0 of the 4x4 image over the shipped camera with cap
255 escapes with count 2, its red channel is the `float` 0.1, for which the conversion of
the claim (clamp, multiply by 255, truncate) gives 25, while the byte stored at offset 0
is 0: the red channel is truncated before it is multiplied. -/
theorem red_byte_truncated_first (lg : ℚ → ℚ) (h : lg 2 = 1) :
    pixelBytes lg shippedColors 4 4 shippedCamera 255 0 = some (0, 43, 82) ∧
      (pixelColor lg shippedColors 4 4 shippedCamera 255 0).map
        (fun color => (redByte color.r, channelByte color.r)) = some (0, 25) := by
  have hev : evaluatePosition (getPosition 0 4 4 shippedCamera) 255 = (false, 2) := by
    decide!
  have hof : F32.ofNat 2 = 2 := by decide!
  have hcol : pixelColor lg shippedColors 4 4 shippedCamera 255 0 =
      escapedColor (fun _ => 1) shippedColors.colorPalette 2 := by
    simp [pixelColor, hev, sampleColor, escapedColor, hof, h]
  rw [pixelBytes, hcol]
  decide!

/-- C5, witness: the binary exponent is the logarithm of 2. -/
theorem red_byte_truncated_first_witness :
    pixelBytes (fun q => F32.ilog2 q) shippedColors 4 4 shippedCamera 255 0 = some (0, 43, 82) ∧
      (pixelColor (fun q => F32.ilog2 q) shippedColors 4 4 shippedCamera 255 0).map
        (fun color => (redByte color.r, channelByte color.r)) = some (0, 25) :=
  red_byte_truncated_first (fun q => F32.ilog2 q) (by decide!)

/-- C6, counterexample: with 4 workers and 2 pixels `count` is 1; worker 3 is handed
`startIndex = 3` above its `upperBound = 2`, and worker 2, which is not the last one,
receives no index instead of `ceil(2/4) = 1`. -/
theorem ranges_four_workers_two_pixels :
    workerCount ((2 * 1) % 2 ^ 64) 4 = 1 ∧
      upperBound (workerCount ((2 * 1) % 2 ^ 64) 4) ((2 * 1) % 2 ^ 64) 3 <
        startIndex (workerCount ((2 * 1) % 2 ^ 64) 4) 3 ∧
      upperBound (workerCount ((2 * 1) % 2 ^ 64) 4) ((2 * 1) % 2 ^ 64) 2 -
        startIndex (workerCount ((2 * 1) % 2 ^ 64) 4) 2 = 0 := by
  decide!

end Assignment4

namespace Assignment4

/-! ## The ranges handed to the workers -/

/-- No worker iterates an index outside the image. -/
theorem iterates_lt_total (count total k i : Nat) (h : iterates count total k i) :
    i < total := by
  obtain ⟨_, h2⟩ := h
  simp only [upperBound] at h2
  omega

/-- Two workers never iterate the same index. -/
theorem iterates_unique (count total k j i : Nat) (hk : iterates count total k i)
    (hj : iterates count total j i) : k = j := by
  obtain ⟨h1, h2⟩ := hk
  obtain ⟨h3, h4⟩ := hj
  simp only [startIndex, upperBound] at h1 h2 h3 h4
  have hk2 : i < (k + 1) * count := by rw [Nat.add_mul, Nat.one_mul]; omega
  have hj2 : i < (j + 1) * count := by rw [Nat.add_mul, Nat.one_mul]; omega
  have hc : 0 < count := by
    rcases Nat.eq_zero_or_pos count with h0 | h0
    · rw [h0] at h2; omega
    · exact h0
  have a : k < j + 1 := Nat.lt_of_mul_lt_mul_right (lt_of_le_of_lt h1 hj2)
  have b : j < k + 1 := Nat.lt_of_mul_lt_mul_right (lt_of_le_of_lt h3 hk2)
  omega

/-- Up to `2^24` pixels every index of the image is iterated by one of the workers. -/
theorem exists_iterates (threads total i : Nat) (hT : 1 ≤ threads) (h24 : total ≤ 2 ^ 24)
    (hi : i < total) :
    ∃ k, k < threads ∧ iterates (workerCount total threads) total k i := by
  rw [workerCount_eq total threads hT (by omega) h24]
  have hdm := Nat.div_add_mod (total + threads - 1) threads
  have hm := Nat.mod_lt (total + threads - 1) hT
  generalize (total + threads - 1) / threads = c at hdm
  generalize (total + threads - 1) % threads = m at hdm hm
  have hc : 0 < c := by
    rcases Nat.eq_zero_or_pos c with h0 | h0
    · rw [h0] at hdm; omega
    · exact h0
  have hcov : total ≤ threads * c := by omega
  have h1 : i / c * c ≤ i := Nat.div_mul_le_self i c
  have h2 : i < (i / c + 1) * c := by
    have := Nat.lt_succ_self (i / c)
    exact (Nat.div_lt_iff_lt_mul hc).mp this
  refine ⟨i / c, ?_, ?_⟩
  · have : i / c * c < threads * c := by omega
    exact Nat.lt_of_mul_lt_mul_right this
  · rw [Nat.add_mul, Nat.one_mul] at h2
    simp only [iterates, startIndex, upperBound]
    omega

/-- C6 (as amended): for `T ≥ 1` workers and `0 < total ≤ 2^24` pixels, `count` is
`ceil(total / T)`; every worker's `upperBound` is at most `total`; a worker whose whole block
fits below `total` receives exactly `count` indices; the worker whose block contains `total`
receives the indices up to `total`; a worker whose block starts at or above `total`, last
or not, receives none. -/
theorem ranges_spec (threads total k : Nat) (hT : 1 ≤ threads) (h0 : 1 ≤ total)
    (h24 : total ≤ 2 ^ 24) :
    workerCount total threads = (total + threads - 1) / threads ∧
    upperBound (workerCount total threads) total k ≤ total ∧
    ((k + 1) * workerCount total threads ≤ total →
      startIndex (workerCount total threads) k ≤ upperBound (workerCount total threads) total k ∧
      upperBound (workerCount total threads) total k -
        startIndex (workerCount total threads) k = workerCount total threads) ∧
    (k * workerCount total threads < total → total < (k + 1) * workerCount total threads →
      startIndex (workerCount total threads) k < upperBound (workerCount total threads) total k ∧
      upperBound (workerCount total threads) total k = total) ∧
    (total ≤ k * workerCount total threads →
      upperBound (workerCount total threads) total k -
        startIndex (workerCount total threads) k = 0) := by
  refine ⟨workerCount_eq total threads hT h0 h24, ?_, ?_, ?_, ?_⟩
  · simp only [upperBound]; omega
  · intro h
    rw [Nat.add_mul, Nat.one_mul] at h
    simp only [upperBound, startIndex]
    omega
  · intro h1 h2
    rw [Nat.add_mul, Nat.one_mul] at h2
    simp only [upperBound, startIndex]
    omega
  · intro h
    simp only [upperBound, startIndex]
    omega

/-- C6, witness: 3 workers on 10 pixels. -/
theorem ranges_spec_witness :
    workerCount 10 3 = (10 + 3 - 1) / 3 ∧
    upperBound (workerCount 10 3) 10 2 ≤ 10 ∧
    ((2 + 1) * workerCount 10 3 ≤ 10 →
      startIndex (workerCount 10 3) 2 ≤ upperBound (workerCount 10 3) 10 2 ∧
      upperBound (workerCount 10 3) 10 2 - startIndex (workerCount 10 3) 2 =
        workerCount 10 3) ∧
    (2 * workerCount 10 3 < 10 → 10 < (2 + 1) * workerCount 10 3 →
      startIndex (workerCount 10 3) 2 < upperBound (workerCount 10 3) 10 2 ∧
      upperBound (workerCount 10 3) 10 2 = 10) ∧
    (10 ≤ 2 * workerCount 10 3 →
      upperBound (workerCount 10 3) 10 2 - startIndex (workerCount 10 3) 2 = 0) :=
  ranges_spec 3 10 2 (by decide) (by decide) (by decide)

/-- Up to `2^24` pixels the workers write every byte of the buffer exactly once: for every
byte offset `b < 3 * total` there is exactly one pair `(k, i)` of a worker `k < T` and an
index `i` it iterates with `b` one of `3i`, `3i + 1`, `3i + 2`; and no worker iterates an
index outside `[0, total)`. -/
theorem every_byte_once (threads total b : Nat) (hT : 1 ≤ threads) (h24 : total ≤ 2 ^ 24)
    (hb : b < 3 * total) :
    (∃! p : Nat × Nat, p.1 < threads ∧ iterates (workerCount total threads) total p.1 p.2 ∧
        (b = 3 * p.2 ∨ b = 3 * p.2 + 1 ∨ b = 3 * p.2 + 2)) ∧
      ∀ k j, iterates (workerCount total threads) total k j → j < total := by
  refine ⟨?_, fun k j h => iterates_lt_total _ _ _ _ h⟩
  obtain ⟨k, hk, hit⟩ := exists_iterates threads total (b / 3) hT h24 (by omega)
  refine ⟨(k, b / 3), ⟨hk, hit, by omega⟩, ?_⟩
  rintro ⟨k2, i2⟩ ⟨_, hit2, hb2⟩
  have hi : i2 = b / 3 := by
    simp only at hb2
    omega
  subst hi
  have hk2 : k2 = k := iterates_unique _ _ _ _ _ hit2 hit
  rw [hk2]

/-- Witness of `every_byte_once`: byte 22 of 10 pixels with 3 workers. -/
theorem every_byte_once_witness :
    (∃! p : Nat × Nat, p.1 < 3 ∧ iterates (workerCount 10 3) 10 p.1 p.2 ∧
        (22 = 3 * p.2 ∨ 22 = 3 * p.2 + 1 ∨ 22 = 3 * p.2 + 2)) ∧
      ∀ k j, iterates (workerCount 10 3) 10 k j → j < 10 :=
  every_byte_once 3 10 22 (by decide) (by decide) (by decide)

/-- Up to `2^24` pixels and with a non-empty palette, the image produced by any number
`T ≥ 1` of workers, run one after another in any order, is the image produced by one
worker. -/
theorem plotMandelbrotIn_eq_single (lg : ℚ → ℚ) (colors : Colors) (image : Image)
    (order : List Nat) (threads width height : Nat) (cam : Camera) (iterations : Nat)
    (hpal : colors.colorPalette ≠ []) (hT : 1 ≤ threads)
    (h24 : (width * height) % 2 ^ 64 ≤ 2 ^ 24)
    (horder : ∀ k, k ∈ order ↔ k < threads) :
    plotMandelbrotIn lg colors image order threads width height cam iterations =
      plotMandelbrot lg colors image 1 width height cam iterations := by
  have hsome := fun i => pixelBytes_isSome lg colors width height cam iterations i hpal
  choose B hB using hsome
  have h64 : 3 * ((width * height) % 2 ^ 64) ≤ 2 ^ 64 := by omega
  rw [plotMandelbrot, plotMandelbrotIn_eq lg colors width height cam iterations B hB _ _ _ h64,
    plotMandelbrotIn_eq lg colors width height cam iterations B hB _ _ _ h64]
  congr 1
  funext b
  have hiff : ∀ (T : Nat) (l : List Nat), 1 ≤ T → (∀ k, k ∈ l ↔ k < T) →
      ((∃ k, k ∈ l ∧ iterates (workerCount ((width * height) % 2 ^ 64) T)
        ((width * height) % 2 ^ 64) k (b / 3)) ↔ b / 3 < (width * height) % 2 ^ 64) := by
    intro T l hT1 hl
    constructor
    · rintro ⟨k, _, hit⟩
      exact iterates_lt_total _ _ _ _ hit
    · intro hlt
      obtain ⟨k, hk, hit⟩ := exists_iterates T _ (b / 3) hT1 h24 hlt
      exact ⟨k, (hl k).mpr hk, hit⟩
  have h1 := hiff threads order hT horder
  have h2 := hiff 1 (List.range 1) (le_refl 1) (fun k => List.mem_range)
  by_cases hlt : b / 3 < (width * height) % 2 ^ 64
  · rw [if_pos (h1.mpr hlt), if_pos (h2.mpr hlt)]
  · rw [if_neg (fun h => hlt (h1.mp h)), if_neg (fun h => hlt (h2.mp h))]

/-- Witness of `plotMandelbrotIn_eq_single`: a 4x4 image with the shipped palette, 4
workers run in the order 2, 0, 3, 1. -/
theorem plotMandelbrotIn_eq_single_witness :
    plotMandelbrotIn (fun q => F32.ilog2 q) shippedColors (fun _ => 0) [2, 0, 3, 1] 4 4 4
        shippedCamera 255 =
      plotMandelbrot (fun q => F32.ilog2 q) shippedColors (fun _ => 0) 1 4 4
        shippedCamera 255 :=
  plotMandelbrotIn_eq_single (fun q => F32.ilog2 q) shippedColors (fun _ => 0) [2, 0, 3, 1]
    4 4 4 shippedCamera 255 (by simp [shippedColors]) (by decide) (by decide)
    (fun k => by simp; omega)

end Assignment4

namespace Assignment4

/-! ## The interpolation -/

/-- C9: for a palette with strictly increasing thresholds and a sample that escaped at
`iteration` with `power = log2(iteration)` equal to the threshold of a control point
`k ≥ 1`, the scan stops at `k`, the interpolation factor is `t = 1` and the colour computed
is control point `k`'s colour on all three channels.  The value of `log2` is far below
`2^24` (hypothesis `hlg`), and the channels of the colour are `float` values. -/
theorem sampleColor_at_threshold (lg : ℚ → ℚ) (palette : List (Nat × Color3f))
    (inSet : Color3f) (iteration k : Nat)
    (hinc : ∀ i j, i < j → j < palette.length → threshold palette i < threshold palette j)
    (hk1 : 1 ≤ k) (hk : k < palette.length)
    (hp : lg (F32.ofNat iteration) = (threshold palette k : ℚ))
    (hlg : lg (F32.ofNat iteration) ≤ 2 ^ 24)
    (hfloat : (colorAt palette k).isFloat) :
    paletteScan palette (lg (F32.ofNat iteration)) = k ∧
      interpolationFactor palette (lg (F32.ofNat iteration)) k = 1 ∧
      sampleColor lg ⟨palette, inSet⟩ (false, iteration) = some (colorAt palette k) := by
  have hk24 : threshold palette k ≤ 2 ^ 24 := by
    rw [hp] at hlg
    exact_mod_cast hlg
  have hconv : ∀ j, j ≤ k → F32.ofNat (threshold palette j) = (threshold palette j : ℚ) := by
    intro j hj
    apply F32.ofNat_of_le
    rcases Nat.lt_or_ge j k with h | h
    · exact le_of_lt (lt_of_lt_of_le (hinc j k h hk) hk24)
    · rw [le_antisymm hj h]; exact hk24
  -- the scan stops at `k`
  obtain ⟨_, _, hbelow, hstop⟩ :=
    scanLoop_spec palette (lg (F32.ofNat iteration)) palette.length 0 (by omega) (by omega)
  have hscan : paletteScan palette (lg (F32.ofNat iteration)) = k := by
    rcases Nat.lt_trichotomy (paletteScan palette (lg (F32.ofNat iteration))) k with h | h | h
    · exfalso
      have hlt : threshold palette (paletteScan palette (lg (F32.ofNat iteration))) <
          threshold palette k := hinc _ k h hk
      have hltq : (threshold palette (paletteScan palette (lg (F32.ofNat iteration))) : ℚ) <
          (threshold palette k : ℚ) := by exact_mod_cast hlt
      rcases hstop with hs | hs
      · have hs2 : paletteScan palette (lg (F32.ofNat iteration)) + 1 = palette.length := hs
        omega
      · have hs2 : ¬ F32.ofNat (threshold palette
            (paletteScan palette (lg (F32.ofNat iteration)))) < lg (F32.ofNat iteration) := hs
        rw [hconv _ (le_of_lt h)] at hs2
        exact hs2 (by linarith)
    · exact h
    · exfalso
      have := hbelow k (Nat.zero_le k) h
      rw [hconv k (le_refl k)] at this
      linarith
  -- the factor is 1
  have hprev : threshold palette (k - 1) < threshold palette k := hinc (k - 1) k (by omega) hk
  have hd24 : threshold palette k - threshold palette (k - 1) ≤ 2 ^ 24 := by omega
  have hden : (threshold palette k + 2 ^ 64 - threshold palette (k - 1)) % 2 ^ 64 =
      threshold palette k - threshold palette (k - 1) := by
    have h64 : threshold palette k < 2 ^ 64 := lt_of_le_of_lt hk24 (by norm_num)
    rw [show threshold palette k + 2 ^ 64 - threshold palette (k - 1) =
      threshold palette k - threshold palette (k - 1) + 2 ^ 64 by omega, Nat.add_mod_right]
    exact Nat.mod_eq_of_lt (by omega)
  have hdq : ((threshold palette k - threshold palette (k - 1) : ℕ) : ℚ) =
      (threshold palette k : ℚ) - (threshold palette (k - 1) : ℚ) := by
    rw [Nat.cast_sub (le_of_lt hprev)]
  have hdpos : (0 : ℚ) < ((threshold palette k - threshold palette (k - 1) : ℕ) : ℚ) := by
    exact_mod_cast Nat.sub_pos_of_lt hprev
  have hfac : interpolationFactor palette (lg (F32.ofNat iteration)) k = 1 := by
    unfold interpolationFactor
    rw [hden, hp, hconv (k - 1) (by omega)]
    unfold F32.sub F32.div
    rw [← hdq]
    have hnum := F32.ofNat_of_le _ hd24
    unfold F32.ofNat at hnum ⊢
    rw [hnum, div_self (ne_of_gt hdpos)]
    decide!
  refine ⟨hscan, hfac, ?_⟩
  -- the colour is that of control point `k`
  obtain ⟨hfr, hfg, hfb⟩ := hfloat
  unfold F32.isFloat at hfr hfg hfb
  have hk0 : k ≠ 0 := by omega
  have hone : F32.sub 1 1 = 0 := by decide!
  simp only [sampleColor, escapedColor, hscan, hfac, if_neg hk0, interpolate, Color3f.scale,
    Color3f.add, F32.mul, F32.add, hone, one_mul, zero_mul, F32.round_zero, zero_add, hfr, hfg,
    hfb]
  simp

/-- C9, witness: the shipped palette and a sample with `power = 10`, the threshold of
control point 1. -/
theorem sampleColor_at_threshold_witness :
    paletteScan shippedColors.colorPalette ((fun _ => 10 : ℚ → ℚ) (F32.ofNat 1024)) = 1 ∧
      interpolationFactor shippedColors.colorPalette
        ((fun _ => 10 : ℚ → ℚ) (F32.ofNat 1024)) 1 = 1 ∧
      sampleColor (fun _ => 10) ⟨shippedColors.colorPalette, ⟨0, 0, 0⟩⟩ (false, 1024) =
        some (colorAt shippedColors.colorPalette 1) :=
  sampleColor_at_threshold (fun _ => 10) shippedColors.colorPalette ⟨0, 0, 0⟩ 1024 1
    (fun i j hij hj => by
      have hj1 : j = 1 := by simp [shippedColors] at hj; omega
      have hi0 : i = 0 := by omega
      subst hj1 hi0
      decide)
    (by decide) (by decide) (by decide!) (by norm_num) (by decide!)

/-- For the palette `{(0, c0), (10, c1)}` and a sample that escaped at `iteration` with
`power = log2(iteration) = 5`, the interpolation factor is `0.5` and each channel of the
colour is `c0 * 0.5 + c1 * 0.5` as the code computes it. -/
theorem sampleColor_two_points (lg : ℚ → ℚ) (c0 c1 inSet : Color3f) (iteration : Nat)
    (hp : lg (F32.ofNat iteration) = 5) :
    sampleColor lg ⟨[(0, c0), (10, c1)], inSet⟩ (false, iteration) =
      some ⟨F32.add (F32.mul (1 / 2) c0.r) (F32.mul (1 / 2) c1.r),
        F32.add (F32.mul (1 / 2) c0.g) (F32.mul (1 / 2) c1.g),
        F32.add (F32.mul (1 / 2) c0.b) (F32.mul (1 / 2) c1.b)⟩ := by
  have h05 : F32.ofNat 0 < 5 := by decide!
  have hscan : paletteScan [(0, c0), (10, c1)] 5 = 1 := by
    have hc : (0 + 1 < [(0, c0), (10, c1)].length ∧
        F32.ofNat (threshold [(0, c0), (10, c1)] 0) < 5) := ⟨by simp, h05⟩
    have hc2 : ¬ (1 + 1 < [(0, c0), (10, c1)].length ∧
        F32.ofNat (threshold [(0, c0), (10, c1)] 1) < 5) := fun h => absurd h.1 (by simp)
    rw [paletteScan, show [(0, c0), (10, c1)].length = 1 + 1 from rfl, scanLoop, if_pos hc,
      scanLoop, if_neg hc2]
  have hquot :
      F32.div (F32.sub 5 (F32.ofNat 0)) (F32.ofNat ((10 + 2 ^ 64 - 0) % 2 ^ 64)) = 1 / 2 := by
    decide!
  have hfac : interpolationFactor [(0, c0), (10, c1)] 5 1 = 1 / 2 := hquot
  have hhalf : F32.sub 1 (1 / 2) = 1 / 2 := by decide!
  simp only [sampleColor, escapedColor, hp, hscan, hfac, interpolate, Color3f.scale,
    Color3f.add, colorAt, hhalf]
  simp only [Bool.false_eq_true, if_false, one_ne_zero, List.getD_cons_zero,
    List.getD_cons_succ]
  rw [show [(0, c0), (10, c1)].getD (1 - 1) ((0 : Nat), (⟨0, 0, 0⟩ : Color3f)) = (0, c0) from rfl]

end Assignment4

namespace Assignment4

/-! ## Known points of the evaluator -/

/-- The orbit of `(0, 0)` stays at `(0, 0)`. -/
theorem orbit_zero (n : Nat) : orbit ⟨0, 0⟩ n = ⟨0, 0⟩ := by
  induction n with
  | zero => rfl
  | succ n ih =>
    rw [orbit, ih]
    decide!

/-- The orbit of `(-1, 0)` alternates between `(0, 0)` and `(-1, 0)`. -/
theorem orbit_minus_one (n : Nat) :
    orbit ⟨-1, 0⟩ (2 * n) = ⟨0, 0⟩ ∧ orbit ⟨-1, 0⟩ (2 * n + 1) = ⟨-1, 0⟩ := by
  induction n with
  | zero =>
    constructor
    · rfl
    · decide!
  | succ n ih =>
    have h1 : orbit ⟨-1, 0⟩ (2 * (n + 1)) = ⟨0, 0⟩ := by
      rw [show 2 * (n + 1) = (2 * n + 1) + 1 by ring, orbit, ih.2]
      decide!
    refine ⟨h1, ?_⟩
    rw [orbit, h1]
    decide!

/-- C14: for every iteration cap, `evaluatePoint` returns the in-set result `(true, 0)` for
`c = (0, 0)` and for `c = (-1, 0)`: the orbit of `(0, 0)` stays at `0` and the orbit of
`(-1, 0)` alternates between `0` and `-1`, so no value is longer than 2. -/
theorem evaluatePoint_known_points (cap : Nat) :
    evaluatePoint ⟨0, 0⟩ cap = (true, 0) ∧ evaluatePoint ⟨-1, 0⟩ cap = (true, 0) ∧
      (∀ n, orbit ⟨0, 0⟩ n = ⟨0, 0⟩) ∧
      (∀ n, orbit ⟨-1, 0⟩ (2 * n) = ⟨0, 0⟩ ∧ orbit ⟨-1, 0⟩ (2 * n + 1) = ⟨-1, 0⟩) ∧
      (∀ n, (orbit ⟨0, 0⟩ n).length ≤ 2 ∧ (orbit ⟨-1, 0⟩ n).length ≤ 2) := by
  have hl0 : ¬ 2 < (⟨0, 0⟩ : Complex).length := by decide!
  have hl1 : ¬ 2 < (⟨-1, 0⟩ : Complex).length := by decide!
  have hz : ∀ n, ¬ 2 < (orbit ⟨0, 0⟩ n).length := fun n => by rw [orbit_zero]; exact hl0
  have hm : ∀ n, ¬ 2 < (orbit ⟨-1, 0⟩ n).length := by
    intro n
    rcases Nat.even_or_odd' n with ⟨m, h | h⟩
    · rw [h, (orbit_minus_one m).1]; exact hl0
    · rw [h, (orbit_minus_one m).2]; exact hl1
  refine ⟨?_, ?_, orbit_zero, orbit_minus_one, fun n => ⟨not_lt.mp (hz n), not_lt.mp (hm n)⟩⟩
  · have := evaluateLoop_inSet ⟨0, 0⟩ cap 0 (fun m _ => by simpa using hz m)
    simpa [evaluatePoint, orbit] using this
  · have := evaluateLoop_inSet ⟨-1, 0⟩ cap 0 (fun m _ => by simpa using hm m)
    simpa [evaluatePoint, orbit] using this

/-- C17, at `c = (2, 2)` with one iteration: the value `z` after one iteration is `(2, 2)`,
longer than 2, and `evaluatePoint` reports the point as in the set: the value computed by
the last iteration is never checked. -/
theorem evaluatePoint_last_value_unchecked :
    orbit ⟨2, 2⟩ 1 = ⟨2, 2⟩ ∧ 2 < (orbit ⟨2, 2⟩ 1).length ∧
      evaluatePoint ⟨2, 2⟩ 1 = (true, 0) := by
  decide!

/-- C19: whenever `evaluatePoint` reports an escape `(false, k)`, the count satisfies
`2 ≤ k ≤ cap`: the count 1 is never reported, because `z_0 = 0` passes the first check;
and with cap 1 every point is reported as in the set. -/
theorem evaluatePoint_count_range (c : Complex) (cap k : Nat)
    (h : evaluatePoint c cap = (false, k)) :
    (2 ≤ k ∧ k ≤ cap) ∧ ∀ c2 : Complex, evaluatePoint c2 1 = (true, 0) := by
  have hl0 : ¬ 2 < (⟨0, 0⟩ : Complex).length := by decide!
  constructor
  · by_cases hex : ∃ n, n < cap ∧ 2 < (orbit c n).length
    · obtain ⟨n, hn, hgt, _, heq⟩ := evaluatePoint_of_exists c cap hex
      rw [heq] at h
      have hk : n + 1 = k := by simpa using h
      have hn0 : n ≠ 0 := by
        intro h0
        rw [h0] at hgt
        exact hl0 hgt
      omega
    · exfalso
      have := evaluateLoop_inSet c cap 0 (fun m hm hgt => hex ⟨m, hm, by simpa using hgt⟩)
      have heq : evaluatePoint c cap = (true, 0) := by simpa [evaluatePoint, orbit] using this
      rw [heq] at h
      simp at h
  · intro c2
    rw [evaluatePoint, evaluateLoop, if_neg hl0, evaluateLoop]

/-- C19, witness: the point `(2, 2)` with cap 2 is reported with the count 2. -/
theorem evaluatePoint_count_range_witness :
    (2 ≤ 2 ∧ 2 ≤ 2) ∧ ∀ c2 : Complex, evaluatePoint c2 1 = (true, 0) :=
  evaluatePoint_count_range ⟨2, 2⟩ 2 2 (by decide!)

end Assignment4

namespace Assignment4

/-! ## The tile worker's effect and the entry point -/

/-- With no pixel, `count` is 0. -/
theorem workerCount_zero (threads : Nat) : workerCount 0 threads = 0 := by
  have h0 : F32.ofNat 0 = 0 := by decide!
  unfold workerCount F32.ceil F32.div
  rw [h0, zero_div, F32.round_zero]
  simp

/-- With no pixel, the workers leave the buffer as it is, whatever the configuration. -/
theorem plotMandelbrotIn_zero (lg : ℚ → ℚ) (colors : Colors) (image : Image)
    (order : List Nat) (threads width height : Nat) (cam : Camera) (iterations : Nat)
    (h : (width * height) % 2 ^ 64 = 0) :
    plotMandelbrotIn lg colors image order threads width height cam iterations =
      some image := by
  unfold plotMandelbrotIn
  simp only [h, workerCount_zero]
  induction order with
  | nil => rfl
  | cons k rest ih =>
    rw [List.foldlM_cons]
    have hsec : plotMandelbrotSection lg colors image (startIndex 0 k) (upperBound 0 0 k)
        width height cam iterations = some image := by
      have hu : upperBound 0 0 k - startIndex 0 k = 0 := by
        simp [upperBound, startIndex]
      rw [plotMandelbrotSection, hu, sectionLoop_zero]
    rw [hsec]
    exact ih

/-- With an empty palette a pixel in the set gets the bytes of `inSet`, and a pixel that
escaped gets none: `front()` of the empty palette is undefined. -/
theorem pixelBytes_empty_palette (lg : ℚ → ℚ) (inSet : Color3f) (width height : Nat)
    (cam : Camera) (iterations i : Nat) :
    pixelBytes lg ⟨[], inSet⟩ width height cam iterations i =
      if (evaluatePosition (getPosition i width height cam) iterations).1
      then some (redByte inSet.r, channelByte inSet.g, channelByte inSet.b)
      else none := by
  simp only [pixelBytes, pixelColor, sampleColor, escapedColor, paletteScan, scanLoop,
    List.length_nil, List.head?_nil, Option.map_none', if_true]
  split_ifs <;> rfl

/-- C16 (as amended): `plotMandelbrot` validates nothing.  With `width * height = 0` its
workers, run in any order, are handed empty ranges and the buffer is returned as it was,
without an error.  With an empty palette the pixels are evaluated as usual: a pixel in the
set is written with the colour `inSet`, a pixel that escaped takes `front()` of the empty
palette, which is undefined and not a reported error. -/
theorem plotMandelbrot_no_validation (lg : ℚ → ℚ) (colors : Colors) (image : Image)
    (order : List Nat) (threads width height : Nat) (cam : Camera) (iterations i : Nat) :
    ((width * height) % 2 ^ 64 = 0 →
      plotMandelbrotIn lg colors image order threads width height cam iterations =
        some image) ∧
    pixelBytes lg ⟨[], colors.inSet⟩ width height cam iterations i =
      (if (evaluatePosition (getPosition i width height cam) iterations).1
      then some (redByte colors.inSet.r, channelByte colors.inSet.g,
        channelByte colors.inSet.b)
      else none) :=
  ⟨plotMandelbrotIn_zero lg colors image order threads width height cam iterations,
    pixelBytes_empty_palette lg colors.inSet width height cam iterations i⟩

/-- C16, counterexample: called with zero dimensions (width 0, 4 workers) `plotMandelbrot`
returns a buffer; called with an empty palette on a 1x1 image whose pixel `(0, 0)` is in
the set, it evaluates the pixel, writes the `inSet` colour (here white, over a buffer of
zeros) and returns the buffer. -/
theorem plotMandelbrot_accepts_violations :
    (plotMandelbrot (fun q => F32.ilog2 q) shippedColors (fun _ => 0) 4 0 4 shippedCamera
        255).isSome = true ∧
      (plotMandelbrot (fun q => F32.ilog2 q) ⟨[], ⟨1, 1, 1⟩⟩ (fun _ => 0) 1 1 1
        ⟨0, 1, 0, -1⟩ 10).map (fun img => (img 0, img 1, img 2)) = some (255, 255, 255) := by
  constructor
  · rw [plotMandelbrot, plotMandelbrotIn_zero _ _ _ _ _ _ _ _ _ (by norm_num)]
    rfl
  · decide!

end Assignment4

namespace Assignment4

/-! ## The corner pixel of the 4x4 image -/

/-- Pixel 0 of the 4x4 image over the shipped camera with cap 255 escapes with count 2;
with `log2(2) = 1` its bytes are `(0, 43, 82)`. -/
theorem corner_pixelBytes (lg : ℚ → ℚ) (h : lg 2 = 1) :
    pixelColor lg shippedColors 4 4 shippedCamera 255 0 =
        some (interpolate shippedColors.colorPalette (F32.div 1 10) 1) ∧
      pixelBytes lg shippedColors 4 4 shippedCamera 255 0 = some (0, 43, 82) := by
  have hev : evaluatePosition (getPosition 0 4 4 shippedCamera) 255 = (false, 2) := by
    decide!
  have hof : F32.ofNat 2 = 2 := by decide!
  have hcol : pixelColor lg shippedColors 4 4 shippedCamera 255 0 =
      escapedColor (fun _ => 1) shippedColors.colorPalette 2 := by
    simp [pixelColor, hev, sampleColor, escapedColor, hof, h]
  have hint : escapedColor (fun _ => 1) shippedColors.colorPalette 2 =
      some (interpolate shippedColors.colorPalette (F32.div 1 10) 1) := by decide!
  constructor
  · rw [hcol, hint]
  · rw [pixelBytes, hcol]
    decide!

/-- C15 (as amended): rendering the 4x4 image over the shipped camera with cap 255 and the
shipped palette, with 1 worker and with 4 workers, pixel `(0, 0)` escapes with count 2, so
that `power = log2(2) = 1` and its colour is the interpolation at `t = 0.1` between the two
control points, `(0.1, 0.172, 0.325)`; the green and blue bytes written at the offsets 1
and 2 are 43 and 82. -/
theorem corner_pixel_interpolated (lg : ℚ → ℚ) (image : Image) (threads : Nat)
    (h : lg 2 = 1) (hT : threads = 1 ∨ threads = 4) :
    evaluatePosition (getPosition 0 4 4 shippedCamera) 255 = (false, 2) ∧
      pixelColor lg shippedColors 4 4 shippedCamera 255 0 =
        some (interpolate shippedColors.colorPalette (F32.div 1 10) 1) ∧
      ∃ img, plotMandelbrot lg shippedColors image threads 4 4 shippedCamera 255 = some img ∧
        img 1 = 43 ∧ img 2 = 82 := by
  have hsome := fun i => pixelBytes_isSome lg shippedColors 4 4 shippedCamera 255 i
    (by simp [shippedColors])
  choose B hB using hsome
  have hB0 : B 0 = (0, 43, 82) := by
    have := (corner_pixelBytes lg h).2
    rw [hB 0] at this
    exact Option.some.inj this
  have ht : (4 * 4) % 2 ^ 64 = 16 := by norm_num
  have hc1 : workerCount 16 1 = 16 := by decide!
  have hc4 : workerCount 16 4 = 4 := by decide!
  have hcov : ∀ b, b < 3 → ∃ k, k ∈ List.range threads ∧
      iterates (workerCount 16 threads) 16 k (b / 3) := by
    intro b hb
    refine ⟨0, ?_, ?_⟩
    · rw [List.mem_range]; omega
    · rcases hT with hT | hT <;> rw [hT] <;>
        simp only [hc1, hc4, iterates, startIndex, upperBound] <;> omega
  refine ⟨by decide!, (corner_pixelBytes lg h).1, _,
    plotMandelbrotIn_eq lg shippedColors 4 4 shippedCamera 255 B hB threads
      (List.range threads) image (by norm_num), ?_, ?_⟩
  · simp only [ht]
    rw [if_pos (hcov 1 (by omega))]
    rw [show 1 / 3 = 0 from rfl, hB0]
    rfl
  · simp only [ht]
    rw [if_pos (hcov 2 (by omega))]
    rw [show 2 / 3 = 0 from rfl, hB0]
    rfl

/-- C15, witness: one worker, a buffer of zeros, the binary exponent standing for `log2`. -/
theorem corner_pixel_interpolated_witness :
    evaluatePosition (getPosition 0 4 4 shippedCamera) 255 = (false, 2) ∧
      pixelColor (fun q => F32.ilog2 q) shippedColors 4 4 shippedCamera 255 0 =
        some (interpolate shippedColors.colorPalette (F32.div 1 10) 1) ∧
      ∃ img, plotMandelbrot (fun q => F32.ilog2 q) shippedColors (fun _ => 0) 1 4 4
          shippedCamera 255 = some img ∧ img 1 = 43 ∧ img 2 = 82 :=
  corner_pixel_interpolated (fun q => F32.ilog2 q) (fun _ => 0) 1 (by decide!) (Or.inl rfl)

/-- C15, counterexample: the bytes of the first palette colour `(0, 0.08, 0.25)` are
`(0, 20, 63)`, and for no `log2` with `log2(2) = 1` and no initial buffer does the render
with one worker leave the green and blue bytes 20 and 63 at the offsets 1 and 2. -/
theorem corner_pixel_not_first_color :
    (redByte 0, channelByte (F32.round (8 / 100)), channelByte (1 / 4)) = (0, 20, 63) ∧
      ¬ ∃ (lg : ℚ → ℚ) (image img : Image), lg 2 = 1 ∧
        plotMandelbrot lg shippedColors image 1 4 4 shippedCamera 255 = some img ∧
        img 1 = 20 ∧ img 2 = 63 := by
  constructor
  · decide!
  · rintro ⟨lg, image, img, h, himg, h1, _⟩
    have hsome := fun i => pixelBytes_isSome lg shippedColors 4 4 shippedCamera 255 i
      (by simp [shippedColors])
    choose B hB using hsome
    have hB0 : B 0 = (0, 43, 82) := by
      have := (corner_pixelBytes lg h).2
      rw [hB 0] at this
      exact Option.some.inj this
    have ht : (4 * 4) % 2 ^ 64 = 16 := by norm_num
    have hc1 : workerCount 16 1 = 16 := by decide!
    have hcov : ∃ k, k ∈ List.range 1 ∧ iterates (workerCount 16 1) 16 k (1 / 3) :=
      ⟨0, by simp, by simp only [hc1, iterates, startIndex, upperBound]; omega⟩
    rw [plotMandelbrot,
      plotMandelbrotIn_eq lg shippedColors 4 4 shippedCamera 255 B hB 1 (List.range 1) image
        (by norm_num)] at himg
    have himg2 := Option.some.inj himg
    rw [← himg2] at h1
    simp only [ht] at h1
    rw [if_pos hcov, show 1 / 3 = 0 from rfl, hB0] at h1
    exact absurd h1 (by decide)

end Assignment4

namespace F32

/-! ## Monotonicity, spacing and relative error of rounding -/

/-- Rounding to nearest never goes above the floor plus one. -/
theorem rne_le_floor_add_one (x : ℚ) : rne x ≤ ⌊x⌋ + 1 := by
  simp only [rne]
  split_ifs <;> omega

/-- Rounding to nearest is monotone. -/
theorem rne_mono (x y : ℚ) (h : x ≤ y) : rne x ≤ rne y := by
  have hf : ⌊x⌋ ≤ ⌊y⌋ := Int.floor_mono h
  rcases lt_or_eq_of_le hf with hlt | heq
  · calc rne x ≤ ⌊x⌋ + 1 := rne_le_floor_add_one x
      _ ≤ ⌊y⌋ := hlt
      _ ≤ rne y := floor_le_rne y
  · simp only [rne]
    rw [heq]
    split_ifs <;> first | omega | (exfalso; linarith)

/-- Rounding to nearest moves a value by at most one half. -/
theorem rne_le_add_half (x : ℚ) : (rne x : ℚ) ≤ x + 1 / 2 := by
  have hf : (⌊x⌋ : ℚ) ≤ x := Int.floor_le x
  simp only [rne]
  split_ifs with h1 h2 h3
  · linarith
  · push_cast; linarith
  · linarith
  · push_cast; linarith

/-- A binary32 value lies on the grid of its binade. -/
theorem float_on_grid (p : ℚ) (hp : isFloat p) (h0 : p ≠ 0) :
    ∃ m : ℤ, p = (m : ℚ) * 2 ^ (ilog2 p - 23) := by
  unfold isFloat at hp
  exact ⟨rne (p / 2 ^ (ilog2 p - 23)), by rw [← round_of_ne_zero p h0, hp]⟩

/-- A positive value is rounded to at most the power of two that closes its binade. -/
theorem round_le_zpow_succ (x : ℚ) (hx : 0 < x) : round x ≤ (2 : ℚ) ^ (ilog2 x + 1) := by
  have h2 := (ilog2_spec x (ne_of_gt hx)).2
  rw [abs_of_pos hx] at h2
  have e : ((2 ^ 24 : ℤ) : ℚ) * 2 ^ (ilog2 x - 23) = 2 ^ (ilog2 x + 1) := by
    rw [show ilog2 x + 1 = 24 + (ilog2 x - 23) by ring, zpow_add₀ (by norm_num : (2 : ℚ) ≠ 0)]
    norm_num
  have := round_le_grid x (ne_of_gt hx) (2 ^ 24) (by rw [e]; exact le_of_lt h2)
  rwa [e] at this

/-- A negative value is rounded to at most minus the power of two that opens its binade. -/
theorem round_le_neg_zpow (x : ℚ) (hx : x < 0) : round x ≤ -(2 : ℚ) ^ ilog2 x := by
  have h1 := (ilog2_spec x (ne_of_lt hx)).1
  rw [abs_of_neg hx] at h1
  have e : ((-(2 ^ 23) : ℤ) : ℚ) * 2 ^ (ilog2 x - 23) = -(2 : ℚ) ^ ilog2 x := by
    rw [zpow_sub₀ (by norm_num : (2 : ℚ) ≠ 0)]
    norm_num
    ring
  have := round_le_grid x (ne_of_lt hx) (-(2 ^ 23)) (by rw [e]; linarith)
  rwa [e] at this

/-- A negative value is rounded to at least minus the power of two that closes its binade. -/
theorem neg_zpow_succ_le_round (x : ℚ) (hx : x < 0) : -(2 : ℚ) ^ (ilog2 x + 1) ≤ round x := by
  have h2 := (ilog2_spec x (ne_of_lt hx)).2
  rw [abs_of_neg hx] at h2
  have e : ((-(2 ^ 24) : ℤ) : ℚ) * 2 ^ (ilog2 x - 23) = -(2 : ℚ) ^ (ilog2 x + 1) := by
    rw [show ilog2 x + 1 = 24 + (ilog2 x - 23) by ring, zpow_add₀ (by norm_num : (2 : ℚ) ≠ 0)]
    norm_num
  have := grid_le_round x (ne_of_lt hx) (-(2 ^ 24)) (by rw [e]; linarith)
  rwa [e] at this

/-- Rounding is monotone inside one binade. -/
theorem round_mono_same (x y : ℚ) (hx : x ≠ 0) (hy : y ≠ 0) (hk : ilog2 x = ilog2 y)
    (h : x ≤ y) : round x ≤ round y := by
  have hp : (0 : ℚ) < 2 ^ (ilog2 y - 23) := zpow_pos (by norm_num) _
  rw [round_of_ne_zero x hx, round_of_ne_zero y hy, hk]
  refine mul_le_mul_of_nonneg_right ?_ (le_of_lt hp)
  exact_mod_cast rne_mono _ _ (div_le_div_of_nonneg_right h (le_of_lt hp))

/-- Rounding is monotone. -/
theorem round_mono (x y : ℚ) (h : x ≤ y) : round x ≤ round y := by
  have h12 : (1 : ℚ) < 2 := by norm_num
  rcases lt_trichotomy x 0 with hx | hx | hx
  · rcases lt_trichotomy y 0 with hy | hy | hy
    · -- both negative
      have hxs := (ilog2_spec x (ne_of_lt hx)).2
      have hys := (ilog2_spec y (ne_of_lt hy)).1
      rw [abs_of_neg hx] at hxs
      rw [abs_of_neg hy] at hys
      have hlt : (2 : ℚ) ^ ilog2 y < 2 ^ (ilog2 x + 1) := by linarith
      have hk := (zpow_lt_zpow_iff_right₀ h12).mp hlt
      rcases lt_or_eq_of_le (show ilog2 y ≤ ilog2 x by omega) with hk2 | hk2
      · have hpow : (2 : ℚ) ^ (ilog2 y + 1) ≤ 2 ^ ilog2 x :=
          (zpow_le_zpow_iff_right₀ h12).mpr (by omega)
        have a := round_le_neg_zpow x hx
        have b := neg_zpow_succ_le_round y hy
        linarith
      · exact round_mono_same x y (ne_of_lt hx) (ne_of_lt hy) hk2.symm h
    · rw [hy, round_zero]
      have := round_le_neg_zpow x hx
      have hp : (0 : ℚ) < 2 ^ ilog2 x := zpow_pos (by norm_num) _
      linarith
    · have := round_le_neg_zpow x hx
      have hp : (0 : ℚ) < 2 ^ ilog2 x := zpow_pos (by norm_num) _
      have := round_pos y hy
      linarith
  · rw [hx, round_zero]
    rcases lt_or_eq_of_le (hx ▸ h) with hy | hy
    · exact le_of_lt (round_pos y hy)
    · rw [← hy, round_zero]
  · -- both positive
    have hy : 0 < y := lt_of_lt_of_le hx h
    have hxs := (ilog2_spec x (ne_of_gt hx)).1
    have hys := (ilog2_spec y (ne_of_gt hy)).2
    rw [abs_of_pos hx] at hxs
    rw [abs_of_pos hy] at hys
    have hlt : (2 : ℚ) ^ ilog2 x < 2 ^ (ilog2 y + 1) := by linarith
    have hk := (zpow_lt_zpow_iff_right₀ h12).mp hlt
    rcases lt_or_eq_of_le (show ilog2 x ≤ ilog2 y by omega) with hk2 | hk2
    · have hpow : (2 : ℚ) ^ (ilog2 x + 1) ≤ 2 ^ ilog2 y :=
        (zpow_le_zpow_iff_right₀ h12).mpr (by omega)
      have a := round_le_zpow_succ x hx
      have b := zpow_ilog2_le_round y hy
      linarith
    · exact round_mono_same x y (ne_of_gt hx) (ne_of_gt hy) hk2 h

/-- Rounding keeps a lower bound that is a binary32 value. -/
theorem float_le_round (a x : ℚ) (ha : isFloat a) (h : a ≤ x) : a ≤ round x := by
  unfold isFloat at ha
  rw [← ha]
  exact round_mono a x h

/-- Rounding keeps an upper bound that is a binary32 value. -/
theorem round_le_float (b x : ℚ) (hb : isFloat b) (h : x ≤ b) : round x ≤ b := by
  unfold isFloat at hb
  rw [← hb]
  exact round_mono x b h

/-- A non-negative value is rounded to a non-negative value. -/
theorem round_nonneg (x : ℚ) (hx : 0 ≤ x) : 0 ≤ round x := by
  have := round_mono 0 x hx
  rwa [round_zero] at this

/-- The relative error of rounding is at most `2^-24`. -/
theorem round_le_mul (x : ℚ) (hx : 0 ≤ x) : round x ≤ x * (1 + 1 / 2 ^ 24) := by
  rcases lt_or_eq_of_le hx with hpos | h0
  · have hp : (0 : ℚ) < 2 ^ (ilog2 x - 23) := zpow_pos (by norm_num) _
    have h1 := (ilog2_spec x (ne_of_gt hpos)).1
    rw [abs_of_pos hpos] at h1
    have hr := rne_le_add_half (x / 2 ^ (ilog2 x - 23))
    have hmul := mul_le_mul_of_nonneg_right hr (le_of_lt hp)
    rw [add_mul, div_mul_cancel₀ _ (ne_of_gt hp)] at hmul
    rw [round_of_ne_zero x (ne_of_gt hpos)]
    have he : (1 : ℚ) / 2 * 2 ^ (ilog2 x - 23) = 2 ^ ilog2 x * (1 / 2 ^ 24) := by
      rw [zpow_sub₀ (by norm_num : (2 : ℚ) ≠ 0)]
      norm_num
      ring
    rw [he] at hmul
    have : (2 : ℚ) ^ ilog2 x * (1 / 2 ^ 24) ≤ x * (1 / 2 ^ 24) :=
      mul_le_mul_of_nonneg_right h1 (by norm_num)
    linarith
  · rw [← h0, round_zero]; norm_num

/-- A binary32 value in `(0, 10)` divided by 10 is rounded below 1. -/
theorem div_ten_lt_one (p : ℚ) (hp : isFloat p) (h0 : 0 < p) (h10 : p < 10) :
    div p 10 < 1 := by
  have hfl : isFloat ((2 ^ 24 - 1) / 2 ^ 24) := by decide!
  have hb : (2 ^ 24 - 1 : ℚ) / 2 ^ 24 < 1 := by norm_num
  unfold div
  refine lt_of_le_of_lt (round_le_float _ _ hfl ?_) hb
  rcases lt_or_ge p 8 with h8 | h8
  · rw [div_le_iff₀ (by norm_num : (0 : ℚ) < 10)]
    norm_num
    linarith
  · have hk : ilog2 p = 3 := by
      apply ilog2_unique
      · rw [abs_of_pos h0]; norm_num; linarith
      · rw [abs_of_pos h0]; norm_num; linarith
    obtain ⟨m, hm⟩ := float_on_grid p hp (ne_of_gt h0)
    rw [hk] at hm
    have hg : (2 : ℚ) ^ ((3 : ℤ) - 23) = 1 / 2 ^ 20 := by
      rw [show (3 : ℤ) - 23 = -20 by norm_num, zpow_neg]
      norm_num
    rw [hg] at hm
    have hmlt : (m : ℚ) < ((10 * 2 ^ 20 : ℤ) : ℚ) := by
      have : (m : ℚ) * (1 / 2 ^ 20) < 10 := by rw [← hm]; exact h10
      push_cast
      have h20 : (0 : ℚ) < 2 ^ 20 := by norm_num
      rw [mul_one_div, div_lt_iff₀ h20] at this
      linarith
    have hm2 : m < 10 * 2 ^ 20 := by exact_mod_cast hmlt
    have hm3 : (m : ℚ) ≤ ((10 * 2 ^ 20 - 1 : ℤ) : ℚ) := by
      exact_mod_cast (show m ≤ 10 * 2 ^ 20 - 1 by omega)
    rw [hm, div_le_iff₀ (by norm_num : (0 : ℚ) < 10)]
    push_cast at hm3
    norm_num at hm3 ⊢
    linarith

/-- The offset `step * index` of the mapper: for `a < b`, at most `2^22` cells and an
index below the number of cells, the `float` product of the step `(b - a) / n` and the
index is non-negative and at most `b - a`. -/
theorem steps_le (a b : ℚ) (hab : a < b) (n c : ℕ) (hn2 : n ≤ 2 ^ 22) (hc : c + 1 ≤ n) :
    0 ≤ mul (div (sub b a) (ofNat n)) (ofNat c) ∧
      mul (div (sub b a) (ofNat n)) (ofNat c) ≤ b - a := by
  have hn0 : (0 : ℚ) < n := by exact_mod_cast (show 0 < n by omega)
  have hc0 : (0 : ℚ) ≤ c := Nat.cast_nonneg c
  have hδ : 0 < b - a := by linarith
  have hnn : ofNat n = n := ofNat_of_le n (le_trans hn2 (by norm_num))
  have hcc : ofNat c = c := ofNat_of_le c (le_trans (by omega) (le_trans hn2 (by norm_num)))
  rw [hnn, hcc]
  unfold mul div sub
  have hDpos : 0 < round (b - a) := round_pos _ hδ
  have hD : round (b - a) ≤ (b - a) * (1 + 1 / 2 ^ 24) := round_le_mul _ (le_of_lt hδ)
  have hq0 : 0 ≤ round (b - a) / n := le_of_lt (div_pos hDpos hn0)
  have hs0 : 0 ≤ round (round (b - a) / n) := round_nonneg _ hq0
  have hs : round (round (b - a) / n) ≤ round (b - a) / n * (1 + 1 / 2 ^ 24) :=
    round_le_mul _ hq0
  have hsc0 : 0 ≤ round (round (b - a) / n) * c := mul_nonneg hs0 hc0
  have hP : round (round (round (b - a) / n) * c) ≤
      round (round (b - a) / n) * c * (1 + 1 / 2 ^ 24) := round_le_mul _ hsc0
  refine ⟨round_nonneg _ hsc0, ?_⟩
  have hu : (0 : ℚ) ≤ 1 + 1 / 2 ^ 24 := by norm_num
  have hcn : (c : ℚ) ≤ n - 1 := by
    have : ((c + 1 : ℕ) : ℚ) ≤ n := by exact_mod_cast hc
    push_cast at this
    linarith
  have hn22 : (n : ℚ) ≤ 2 ^ 22 := by exact_mod_cast hn2
  have hfac : (1 + 1 / 2 ^ 24 : ℚ) ^ 3 * c / n ≤ 1 := by
    rw [div_le_one hn0]
    have h3 : (1 + 1 / 2 ^ 24 : ℚ) ^ 3 ≤ 1 + 1 / 2 ^ 22 := by norm_num
    calc (1 + 1 / 2 ^ 24 : ℚ) ^ 3 * c ≤ (1 + 1 / 2 ^ 22) * c :=
          mul_le_mul_of_nonneg_right h3 hc0
      _ ≤ (1 + 1 / 2 ^ 22) * (n - 1) := mul_le_mul_of_nonneg_left hcn (by norm_num)
      _ ≤ n := by nlinarith
  calc round (round (round (b - a) / n) * c)
      ≤ round (round (b - a) / n) * c * (1 + 1 / 2 ^ 24) := hP
    _ ≤ round (b - a) / n * (1 + 1 / 2 ^ 24) * c * (1 + 1 / 2 ^ 24) := by gcongr
    _ ≤ (b - a) * (1 + 1 / 2 ^ 24) / n * (1 + 1 / 2 ^ 24) * c * (1 + 1 / 2 ^ 24) := by
        gcongr
    _ = (b - a) * ((1 + 1 / 2 ^ 24) ^ 3 * c / n) := by ring
    _ ≤ (b - a) * 1 := mul_le_mul_of_nonneg_left hfac (le_of_lt hδ)
    _ = b - a := mul_one _

end F32

namespace F32

/-! ## Rounding with the exponent range of the format -/

/-- The binary exponent does not depend on the sign. -/
theorem ilog2_neg (x : ℚ) : ilog2 (-x) = ilog2 x := by
  simp [ilog2]

/-- Rounding to the nearest integer is odd. -/
theorem rne_neg (x : ℚ) : rne (-x) = -rne x := by
  have h1 := Int.floor_le x
  have h2 := Int.lt_floor_add_one x
  rcases eq_or_lt_of_le h1 with h0 | h0
  · rw [← h0, ← Int.cast_neg, rne_intCast, rne_intCast]
  · have hf : ⌊-x⌋ = -⌊x⌋ - 1 := by
      rw [Int.floor_eq_iff]
      push_cast
      constructor <;> linarith
    simp only [rne, hf]
    push_cast
    split_ifs <;> first | omega | (exfalso; linarith)

/-- Rounding to binary32 is odd. -/
theorem round_neg (x : ℚ) : round (-x) = -round x := by
  rcases eq_or_ne x 0 with h | h
  · rw [h, neg_zero, round_zero, neg_zero]
  · rw [round_of_ne_zero _ (neg_ne_zero.2 h), round_of_ne_zero _ h, ilog2_neg, neg_div, rne_neg]
    push_cast
    ring

/-- The opposite of a binary32 value is one. -/
theorem isFloat_neg (x : ℚ) (h : isFloat x) : isFloat (-x) := by
  unfold isFloat at *
  rw [round_neg, h]

/-- Rounding keeps a bound of the magnitude that is a binary32 value. -/
theorem abs_round_le_float (b q : ℚ) (hb : isFloat b) (h : |q| ≤ b) : |round q| ≤ b := by
  rw [abs_le] at h ⊢
  exact ⟨float_le_round _ _ (isFloat_neg b hb) h.1, round_le_float _ _ hb h.2⟩

/-- Rounding to nearest moves a value by at most one half (lower side). -/
theorem sub_half_le_rne (x : ℚ) : x - 1 / 2 ≤ (rne x : ℚ) := by
  have hf : x < (⌊x⌋ : ℚ) + 1 := Int.lt_floor_add_one x
  simp only [rne]
  split_ifs with h1 h2 h3
  · linarith
  · push_cast; linarith
  · linarith
  · push_cast; linarith

/-- The relative error of rounding is at most `2^-24` (lower side). -/
theorem mul_le_round (x : ℚ) (hx : 0 ≤ x) : x * (1 - 1 / 2 ^ 24) ≤ round x := by
  rcases lt_or_eq_of_le hx with hpos | h0
  · have hp : (0 : ℚ) < 2 ^ (ilog2 x - 23) := zpow_pos (by norm_num) _
    have h1 := (ilog2_spec x (ne_of_gt hpos)).1
    rw [abs_of_pos hpos] at h1
    have hr := sub_half_le_rne (x / 2 ^ (ilog2 x - 23))
    have hmul := mul_le_mul_of_nonneg_right hr (le_of_lt hp)
    rw [sub_mul, div_mul_cancel₀ _ (ne_of_gt hp)] at hmul
    rw [round_of_ne_zero x (ne_of_gt hpos)]
    have he : (1 : ℚ) / 2 * 2 ^ (ilog2 x - 23) = 2 ^ ilog2 x * (1 / 2 ^ 24) := by
      rw [zpow_sub₀ (by norm_num : (2 : ℚ) ≠ 0)]
      norm_num
      ring
    rw [he] at hmul
    have : (2 : ℚ) ^ ilog2 x * (1 / 2 ^ 24) ≤ x * (1 / 2 ^ 24) :=
      mul_le_mul_of_nonneg_right h1 (by norm_num)
    linarith
  · rw [← h0, round_zero]; norm_num

/-- In the normal range and without overflow the rounding is `round`. -/
theorem roundFinite_of_normal (q : ℚ) (h1 : 1 / 2 ^ 126 ≤ |q|) (h2 : |round q| < 2 ^ 128) :
    roundFinite q = some (round q) := by
  unfold roundFinite
  rw [if_neg (not_le.2 h2), if_pos h1]

/-- Zero is rounded to zero. -/
theorem roundFinite_zero : roundFinite 0 = some 0 := by
  decide!

/-- A value whose magnitude is at most a binary32 value below `2^128` does not overflow. -/
theorem roundFinite_isSome (b q : ℚ) (hb : isFloat b) (hb2 : b < 2 ^ 128) (h : |q| ≤ b) :
    ∃ r, roundFinite q = some r := by
  have h1 := abs_round_le_float b q hb h
  unfold roundFinite
  rw [if_neg (not_le.2 (lt_of_le_of_lt h1 hb2))]
  split_ifs
  · exact ⟨_, rfl⟩
  · exact ⟨_, rfl⟩

/-- A finite binary32 value has at most 24 significant bits. -/
theorem isFloat_of_isBinary32 (x : ℚ) (h : isBinary32 x) : isFloat x := by
  unfold isBinary32 roundFinite at h
  split_ifs at h with h1 h2
  · exact Option.some.inj h
  · have hx : ((rne (x * 2 ^ 149) : ℤ) : ℚ) / 2 ^ 149 = x := Option.some.inj h
    have hp : (0 : ℚ) < 2 ^ 149 := by positivity
    have hm : ((rne (x * 2 ^ 149) : ℤ) : ℚ) = x * 2 ^ 149 := by
      rw [div_eq_iff (ne_of_gt hp)] at hx
      exact hx
    have hlt : |x| < 1 / 2 ^ 126 := not_le.1 h2
    have habs : |((rne (x * 2 ^ 149) : ℤ) : ℚ)| ≤ 2 ^ 24 := by
      rw [hm, abs_mul, abs_of_pos hp]
      have : |x| * 2 ^ 149 < 1 / 2 ^ 126 * 2 ^ 149 := mul_lt_mul_of_pos_right hlt hp
      have h23 : (1 : ℚ) / 2 ^ 126 * 2 ^ 149 = 2 ^ 23 := by norm_num
      rw [h23] at this
      have : (2 : ℚ) ^ 23 ≤ 2 ^ 24 := by norm_num
      linarith
    have habsz : |rne (x * 2 ^ 149)| ≤ 2 ^ 24 := by exact_mod_cast habs
    have hgrid : x = ((rne (x * 2 ^ 149) : ℤ) : ℚ) * 2 ^ (-149 : ℤ) := by
      rw [hm, zpow_neg, mul_assoc]
      norm_num
    unfold isFloat
    have := round_int_mul_zpow (rne (x * 2 ^ 149)) (-149) habsz
    rw [← hgrid] at this
    exact this

/-- A finite binary32 value is below `2^128` in magnitude. -/
theorem abs_lt_of_isBinary32 (x : ℚ) (h : isBinary32 x) : |x| < 2 ^ 128 := by
  have hf : round x = x := isFloat_of_isBinary32 x h
  by_contra hc
  unfold isBinary32 roundFinite at h
  rw [if_pos (by rw [hf]; exact not_lt.1 hc)] at h
  cases h

/-- A binary32 value in the normal range that does not overflow is a finite binary32
value. -/
theorem isBinary32_of_isFloat (x : ℚ) (h : isFloat x) (h1 : 1 / 2 ^ 126 ≤ |x|)
    (h2 : |x| < 2 ^ 128) : isBinary32 x := by
  unfold isFloat at h
  unfold isBinary32
  rw [roundFinite_of_normal x h1 (by rw [h]; exact h2), h]

/-- Rounding keeps a lower bound that is a finite binary32 value. -/
theorem le_roundFinite (a v r : ℚ) (ha : isBinary32 a) (h : a ≤ v)
    (hr : roundFinite v = some r) : a ≤ r := by
  have haf := isFloat_of_isBinary32 a ha
  have hp : (0 : ℚ) < 2 ^ 149 := by positivity
  unfold roundFinite at hr
  split_ifs at hr with h1 h2
  · rw [← Option.some.inj hr]
    exact float_le_round a v haf h
  · have hr2 : ((rne (v * 2 ^ 149) : ℤ) : ℚ) / 2 ^ 149 = r := Option.some.inj hr
    have hv : |v| < 1 / 2 ^ 126 := not_le.1 h2
    rw [← hr2, le_div_iff₀ hp]
    unfold isBinary32 roundFinite at ha
    split_ifs at ha with g1 g2
    · have hneg : a ≤ -(1 / 2 ^ 126) := by
        rcases le_abs'.1 g2 with g | g
        · linarith
        · have := (abs_lt.1 hv).2
          linarith
      have hM : ((-(2 ^ 23) : ℤ) : ℚ) ≤ v * 2 ^ 149 := by
        have h3 := (abs_lt.1 hv).1
        have h4 : -(1 / 2 ^ 126) * 2 ^ 149 ≤ v * 2 ^ 149 :=
          mul_le_mul_of_nonneg_right (le_of_lt h3) (le_of_lt hp)
        have h5 : (-(1 / 2 ^ 126) : ℚ) * 2 ^ 149 = -(2 ^ 23) := by norm_num
        rw [h5] at h4
        push_cast
        exact h4
      have hrne : ((-(2 ^ 23) : ℤ) : ℚ) ≤ ((rne (v * 2 ^ 149) : ℤ) : ℚ) := by
        exact_mod_cast le_rne _ _ hM
      have h6 : a * 2 ^ 149 ≤ -(1 / 2 ^ 126) * 2 ^ 149 :=
        mul_le_mul_of_nonneg_right hneg (le_of_lt hp)
      have h5 : (-(1 / 2 ^ 126) : ℚ) * 2 ^ 149 = -(2 ^ 23) := by norm_num
      rw [h5] at h6
      push_cast at hrne
      linarith
    · have ha2 : ((rne (a * 2 ^ 149) : ℤ) : ℚ) / 2 ^ 149 = a := Option.some.inj ha
      rw [div_eq_iff (ne_of_gt hp)] at ha2
      have hle : ((rne (a * 2 ^ 149) : ℤ) : ℚ) ≤ v * 2 ^ 149 := by
        rw [ha2]
        exact mul_le_mul_of_nonneg_right h (le_of_lt hp)
      have := le_rne _ _ hle
      rw [← ha2]
      exact_mod_cast this

/-- Rounding keeps an upper bound that is a finite binary32 value. -/
theorem roundFinite_le (b v r : ℚ) (hb : isBinary32 b) (h : v ≤ b)
    (hr : roundFinite v = some r) : r ≤ b := by
  have hbf := isFloat_of_isBinary32 b hb
  have hp : (0 : ℚ) < 2 ^ 149 := by positivity
  unfold roundFinite at hr
  split_ifs at hr with h1 h2
  · rw [← Option.some.inj hr]
    exact round_le_float b v hbf h
  · have hr2 : ((rne (v * 2 ^ 149) : ℤ) : ℚ) / 2 ^ 149 = r := Option.some.inj hr
    have hv : |v| < 1 / 2 ^ 126 := not_le.1 h2
    rw [← hr2, div_le_iff₀ hp]
    unfold isBinary32 roundFinite at hb
    split_ifs at hb with g1 g2
    · have hpos : 1 / 2 ^ 126 ≤ b := by
        rcases le_abs'.1 g2 with g | g
        · have := (abs_lt.1 hv).1
          linarith
        · exact g
      have hM : v * 2 ^ 149 ≤ (((2 ^ 23 : ℤ)) : ℚ) := by
        have h3 := (abs_lt.1 hv).2
        have h4 : v * 2 ^ 149 ≤ 1 / 2 ^ 126 * 2 ^ 149 :=
          mul_le_mul_of_nonneg_right (le_of_lt h3) (le_of_lt hp)
        have h5 : ((1 / 2 ^ 126) : ℚ) * 2 ^ 149 = 2 ^ 23 := by norm_num
        rw [h5] at h4
        push_cast
        exact h4
      have hrne : ((rne (v * 2 ^ 149) : ℤ) : ℚ) ≤ (((2 ^ 23 : ℤ)) : ℚ) := by
        exact_mod_cast rne_le _ _ hM
      have h6 : 1 / 2 ^ 126 * 2 ^ 149 ≤ b * 2 ^ 149 :=
        mul_le_mul_of_nonneg_right hpos (le_of_lt hp)
      have h5 : ((1 / 2 ^ 126) : ℚ) * 2 ^ 149 = 2 ^ 23 := by norm_num
      rw [h5] at h6
      push_cast at hrne
      linarith
    · have hb2 : ((rne (b * 2 ^ 149) : ℤ) : ℚ) / 2 ^ 149 = b := Option.some.inj hb
      rw [div_eq_iff (ne_of_gt hp)] at hb2
      have hle : v * 2 ^ 149 ≤ ((rne (b * 2 ^ 149) : ℤ) : ℚ) := by
        rw [hb2]
        exact mul_le_mul_of_nonneg_right h (le_of_lt hp)
      have := rne_le _ _ hle
      rw [← hb2]
      exact_mod_cast this

/-- The result of an operation that does not overflow is finite. -/
theorem Ext.ofRat_of_roundFinite (q r : ℚ) (h : roundFinite q = some r) :
    Ext.ofRat q = Ext.fin r := by
  unfold Ext.ofRat
  rw [h]

/-- The result of an operation whose exact result is zero or in the normal range, and
does not overflow, is the value given by `round`. -/
theorem Ext.ofRat_of_normal (q : ℚ) (h1 : q = 0 ∨ 1 / 2 ^ 126 ≤ |q|)
    (h2 : |round q| < 2 ^ 128) : Ext.ofRat q = Ext.fin (round q) := by
  rcases h1 with h0 | h1
  · rw [h0, round_zero]
    exact Ext.ofRat_of_roundFinite 0 0 roundFinite_zero
  · exact Ext.ofRat_of_roundFinite q _ (roundFinite_of_normal q h1 h2)

/-- A natural number up to `2^24` is converted exactly. -/
theorem Ext.ofNat_fin_of_le (N : ℕ) (hN : N ≤ 2 ^ 24) : Ext.ofNat N = Ext.fin N := by
  have hr : round (N : ℚ) = N := F32.ofNat_of_le N hN
  have hN2 : (N : ℚ) ≤ 2 ^ 24 := by exact_mod_cast hN
  have h0 : (0 : ℚ) ≤ N := Nat.cast_nonneg N
  have := Ext.ofRat_of_normal (N : ℚ) (by
    rcases Nat.eq_zero_or_pos N with h | h
    · left; rw [h]; norm_num
    · right
      have h1 : (1 : ℚ) ≤ N := by exact_mod_cast h
      rw [abs_of_nonneg h0]
      have : (1 : ℚ) / 2 ^ 126 ≤ 1 := by norm_num
      linarith) (by
    rw [hr, abs_of_nonneg h0]
    have : (2 : ℚ) ^ 24 < 2 ^ 128 := by norm_num
    linarith)
  rw [hr] at this
  exact this

end F32

namespace F32

/-! ## The offset of a column or row -/

/-- Subtraction of finite values. -/
theorem Ext.sub_fin (a b : ℚ) : Ext.sub (Ext.fin a) (Ext.fin b) = Ext.ofRat (a - b) := rfl

/-- Addition of finite values. -/
theorem Ext.add_fin (a b : ℚ) : Ext.add (Ext.fin a) (Ext.fin b) = Ext.ofRat (a + b) := rfl

/-- Multiplication of finite values. -/
theorem Ext.mul_fin (a b : ℚ) : Ext.mul (Ext.fin a) (Ext.fin b) = Ext.ofRat (a * b) := rfl

/-- Division of a finite value by a nonzero finite value. -/
theorem Ext.div_fin (a b : ℚ) (hb : b ≠ 0) :
    Ext.div (Ext.fin a) (Ext.fin b) = Ext.ofRat (a / b) := by
  show (if b = 0 then (if a = 0 then Ext.nan else Ext.inf (decide (a < 0)))
    else Ext.ofRat (a / b)) = _
  rw [if_neg hb]

/-- The magnitude of a rounded value is at most a binary32 value below `2^128`. -/
theorem roundFinite_bound (q d : ℚ) (h : roundFinite q = some d) :
    ∃ b, isFloat b ∧ b < 2 ^ 128 ∧ |d| ≤ b := by
  unfold roundFinite at h
  split_ifs at h with h1 h2
  · have hd : round q = d := Option.some.inj h
    rcases le_total 0 d with h0 | h0
    · refine ⟨d, ?_, ?_, le_of_eq (abs_of_nonneg h0)⟩
      · unfold isFloat
        rw [← hd, round_round]
      · rw [← abs_of_nonneg h0, ← hd]
        exact not_le.1 h1
    · refine ⟨-d, ?_, ?_, le_of_eq (abs_of_nonpos h0)⟩
      · apply isFloat_neg
        unfold isFloat
        rw [← hd, round_round]
      · rw [← abs_of_nonpos h0, ← hd]
        exact not_le.1 h1
  · have hd : ((rne (q * 2 ^ 149) : ℤ) : ℚ) / 2 ^ 149 = d := Option.some.inj h
    have hp : (0 : ℚ) < 2 ^ 149 := by positivity
    have hv := abs_lt.1 (not_le.1 h2)
    have h5 : ((1 / 2 ^ 126) : ℚ) * 2 ^ 149 = 2 ^ 23 := by norm_num
    have hup : q * 2 ^ 149 ≤ (((2 ^ 23 : ℤ)) : ℚ) := by
      have h4 : q * 2 ^ 149 ≤ 1 / 2 ^ 126 * 2 ^ 149 :=
        mul_le_mul_of_nonneg_right (le_of_lt hv.2) (le_of_lt hp)
      rw [h5] at h4
      push_cast
      exact h4
    have hlo : ((-(2 ^ 23) : ℤ) : ℚ) ≤ q * 2 ^ 149 := by
      have h4 : -(1 / 2 ^ 126) * 2 ^ 149 ≤ q * 2 ^ 149 :=
        mul_le_mul_of_nonneg_right (le_of_lt hv.1) (le_of_lt hp)
      rw [neg_mul, h5] at h4
      push_cast
      exact h4
    have h1r : ((rne (q * 2 ^ 149) : ℤ) : ℚ) ≤ 2 ^ 23 := by
      exact_mod_cast rne_le _ _ hup
    have h2r : -(2 ^ 23 : ℚ) ≤ ((rne (q * 2 ^ 149) : ℤ) : ℚ) := by
      exact_mod_cast le_rne _ _ hlo
    refine ⟨1 / 2 ^ 126, by decide!, by norm_num, ?_⟩
    rw [← hd, abs_le]
    constructor
    · rw [le_div_iff₀ hp, neg_mul, h5]
      exact h2r
    · rw [div_le_iff₀ hp, h5]
      exact h1r

/-- The quotient of a finite value by a converted positive integer is finite. -/
theorem Ext.div_ofNat_fin (d : ℚ) (hd : ∃ b, isFloat b ∧ b < 2 ^ 128 ∧ |d| ≤ b) (n : ℕ)
    (hn : 0 < n) : ∃ s, Ext.div (Ext.fin d) (Ext.ofNat n) = Ext.fin s := by
  obtain ⟨b, hb, hb2, hdb⟩ := hd
  unfold Ext.ofNat Ext.ofRat
  cases hw : roundFinite (n : ℚ) with
  | none => exact ⟨0, rfl⟩
  | some w =>
    have h1 : (1 : ℚ) ≤ w :=
      le_roundFinite 1 n w (by decide!) (by exact_mod_cast hn) hw
    have hw0 : w ≠ 0 := by
      intro h
      rw [h] at h1
      norm_num at h1
    show ∃ s, Ext.div (Ext.fin d) (Ext.fin w) = Ext.fin s
    rw [Ext.div_fin d w hw0]
    have hq : |d / w| ≤ b := by
      rw [abs_div, abs_of_pos (lt_of_lt_of_le one_pos h1)]
      exact le_trans (div_le_self (abs_nonneg d) h1) hdb
    obtain ⟨s, hs⟩ := roundFinite_isSome b (d / w) hb hb2 hq
    exact ⟨s, Ext.ofRat_of_roundFinite _ _ hs⟩

/-- The offset of column (or row) `c` of `n`, over an interval `[a, b]` of length between
`2^-100` and `2^101`: no operation overflows or leaves the normal range, and the offset is
the one computed with `round`. -/
theorem Ext.offset_eq (a b : ℚ) (n c : ℕ) (hlo : 1 / 2 ^ 100 ≤ b - a) (hhi : b - a ≤ 2 ^ 101)
    (hn2 : n ≤ 2 ^ 22) (hc : c + 1 ≤ n) :
    Ext.mul (Ext.div (Ext.sub (Ext.fin b) (Ext.fin a)) (Ext.ofNat n)) (Ext.ofNat c) =
      Ext.fin (F32.mul (F32.div (F32.sub b a) (F32.ofNat n)) (F32.ofNat c)) := by
  have hn0 : (0 : ℚ) < n := by exact_mod_cast (show 0 < n by omega)
  have hn1 : (1 : ℚ) ≤ n := by exact_mod_cast (show 1 ≤ n by omega)
  have hn22 : (n : ℚ) ≤ 2 ^ 22 := by exact_mod_cast hn2
  have hc0 : (0 : ℚ) ≤ c := Nat.cast_nonneg c
  have hcn : (c : ℚ) ≤ 2 ^ 22 := by
    have : (c : ℚ) ≤ n := by exact_mod_cast (show c ≤ n by omega)
    linarith
  have hδ : 0 < b - a := lt_of_lt_of_le (by norm_num) hlo
  have hnn : F32.ofNat n = n := F32.ofNat_of_le n (le_trans hn2 (by norm_num))
  have hcc : F32.ofNat c = c :=
    F32.ofNat_of_le c (le_trans (by omega) (le_trans hn2 (by norm_num)))
  have hnE : Ext.ofNat n = Ext.fin n := Ext.ofNat_fin_of_le n (le_trans hn2 (by norm_num))
  have hcE : Ext.ofNat c = Ext.fin c :=
    Ext.ofNat_fin_of_le c (le_trans (by omega) (le_trans hn2 (by norm_num)))
  have hsmall : (1 : ℚ) / 2 ^ 126 ≤ 1 / 2 ^ 122 := by norm_num
  -- the difference
  have hD1 : 1 / 2 ^ 100 ≤ round (b - a) := float_le_round _ _ (by decide!) hlo
  have hD2 : round (b - a) ≤ 2 ^ 101 := round_le_float _ _ (by decide!) hhi
  have hDpos : 0 < round (b - a) := lt_of_lt_of_le (by norm_num) hD1
  have hsub : Ext.sub (Ext.fin b) (Ext.fin a) = Ext.fin (round (b - a)) := by
    rw [Ext.sub_fin]
    apply Ext.ofRat_of_normal
    · right
      rw [abs_of_pos hδ]
      exact le_trans (by norm_num) hlo
    · rw [abs_of_pos hDpos]
      exact lt_of_le_of_lt hD2 (by norm_num)
  -- the step
  have hq1 : 1 / 2 ^ 122 ≤ round (b - a) / n := by
    rw [le_div_iff₀ hn0]
    calc (1 : ℚ) / 2 ^ 122 * n ≤ 1 / 2 ^ 122 * 2 ^ 22 :=
          mul_le_mul_of_nonneg_left hn22 (by norm_num)
      _ = 1 / 2 ^ 100 := by norm_num
      _ ≤ round (b - a) := hD1
  have hq2 : round (b - a) / n ≤ 2 ^ 101 :=
    le_trans (div_le_self (le_of_lt hDpos) hn1) hD2
  have hS1 : 1 / 2 ^ 122 ≤ round (round (b - a) / n) := float_le_round _ _ (by decide!) hq1
  have hS2 : round (round (b - a) / n) ≤ 2 ^ 101 := round_le_float _ _ (by decide!) hq2
  have hSpos : 0 < round (round (b - a) / n) := lt_of_lt_of_le (by norm_num) hS1
  have hdiv : Ext.div (Ext.fin (round (b - a))) (Ext.fin n) =
      Ext.fin (round (round (b - a) / n)) := by
    rw [Ext.div_fin _ _ (ne_of_gt hn0)]
    apply Ext.ofRat_of_normal
    · right
      rw [abs_of_pos (lt_of_lt_of_le (by norm_num) hq1)]
      exact le_trans hsmall hq1
    · rw [abs_of_pos hSpos]
      exact lt_of_le_of_lt hS2 (by norm_num)
  -- the offset
  have hp0 : 0 ≤ round (round (b - a) / n) * c := mul_nonneg (le_of_lt hSpos) hc0
  have hp2 : round (round (b - a) / n) * c ≤ 2 ^ 123 := by
    calc round (round (b - a) / n) * c ≤ 2 ^ 101 * 2 ^ 22 :=
          mul_le_mul hS2 hcn hc0 (by norm_num)
      _ = 2 ^ 123 := by norm_num
  have hP2 : round (round (round (b - a) / n) * c) ≤ 2 ^ 123 :=
    round_le_float _ _ (by decide!) hp2
  have hmul : Ext.mul (Ext.fin (round (round (b - a) / n))) (Ext.fin c) =
      Ext.fin (round (round (round (b - a) / n) * c)) := by
    rw [Ext.mul_fin]
    apply Ext.ofRat_of_normal
    · rcases Nat.eq_zero_or_pos c with h0 | hpos
      · left
        rw [h0]
        simp
      · right
        have h1 : (1 : ℚ) ≤ c := by exact_mod_cast hpos
        rw [abs_of_nonneg hp0]
        calc (1 : ℚ) / 2 ^ 126 ≤ 1 / 2 ^ 122 := hsmall
          _ ≤ round (round (b - a) / n) := hS1
          _ = round (round (b - a) / n) * 1 := (mul_one _).symm
          _ ≤ round (round (b - a) / n) * c :=
            mul_le_mul_of_nonneg_left h1 (le_of_lt hSpos)
    · rw [abs_of_nonneg (round_nonneg _ hp0)]
      exact lt_of_le_of_lt hP2 (by norm_num)
  rw [hsub, hnE, hdiv, hcE, hmul, hnn, hcc]
  rfl

/-- The offset of column (or row) `c` of `n` over `[a, b]` is `c * (b - a) / n` up to a
relative error of `2^-22`. -/
theorem steps_near (a b : ℚ) (hab : a < b) (n c : ℕ) (hn2 : n ≤ 2 ^ 22) (hc : c + 1 ≤ n) :
    c * (b - a) / n * (1 - 1 / 2 ^ 22) ≤ mul (div (sub b a) (ofNat n)) (ofNat c) ∧
      mul (div (sub b a) (ofNat n)) (ofNat c) ≤ c * (b - a) / n * (1 + 1 / 2 ^ 22) := by
  have hn0 : (0 : ℚ) < n := by exact_mod_cast (show 0 < n by omega)
  have hc0 : (0 : ℚ) ≤ c := Nat.cast_nonneg c
  have hδ : 0 < b - a := by linarith
  have hnn : ofNat n = n := ofNat_of_le n (le_trans hn2 (by norm_num))
  have hcc : ofNat c = c := ofNat_of_le c (le_trans (by omega) (le_trans hn2 (by norm_num)))
  rw [hnn, hcc]
  unfold mul div sub
  have hDpos : 0 < round (b - a) := round_pos _ hδ
  have hq0 : 0 ≤ round (b - a) / n := le_of_lt (div_pos hDpos hn0)
  have hs0 : 0 ≤ round (round (b - a) / n) := round_nonneg _ hq0
  have hsc0 : 0 ≤ round (round (b - a) / n) * c := mul_nonneg hs0 hc0
  have hE0 : 0 ≤ c * (b - a) / n := div_nonneg (mul_nonneg hc0 (le_of_lt hδ)) (le_of_lt hn0)
  have hu : (0 : ℚ) ≤ 1 + 1 / 2 ^ 24 := by norm_num
  have hl : (0 : ℚ) ≤ 1 - 1 / 2 ^ 24 := by norm_num
  constructor
  · have hD : (b - a) * (1 - 1 / 2 ^ 24) ≤ round (b - a) := mul_le_round _ (le_of_lt hδ)
    have hs : round (b - a) / n * (1 - 1 / 2 ^ 24) ≤ round (round (b - a) / n) :=
      mul_le_round _ hq0
    have hP : round (round (b - a) / n) * c * (1 - 1 / 2 ^ 24) ≤
        round (round (round (b - a) / n) * c) := mul_le_round _ hsc0
    have h3 : (1 - 1 / 2 ^ 22 : ℚ) ≤ (1 - 1 / 2 ^ 24) ^ 3 := by norm_num
    calc c * (b - a) / n * (1 - 1 / 2 ^ 22)
        ≤ c * (b - a) / n * (1 - 1 / 2 ^ 24) ^ 3 := mul_le_mul_of_nonneg_left h3 hE0
      _ = (b - a) * (1 - 1 / 2 ^ 24) / n * (1 - 1 / 2 ^ 24) * c * (1 - 1 / 2 ^ 24) := by ring
      _ ≤ round (b - a) / n * (1 - 1 / 2 ^ 24) * c * (1 - 1 / 2 ^ 24) := by gcongr
      _ ≤ round (round (b - a) / n) * c * (1 - 1 / 2 ^ 24) := by gcongr
      _ ≤ round (round (round (b - a) / n) * c) := hP
  · have hD : round (b - a) ≤ (b - a) * (1 + 1 / 2 ^ 24) := round_le_mul _ (le_of_lt hδ)
    have hs : round (round (b - a) / n) ≤ round (b - a) / n * (1 + 1 / 2 ^ 24) :=
      round_le_mul _ hq0
    have hP : round (round (round (b - a) / n) * c) ≤
        round (round (b - a) / n) * c * (1 + 1 / 2 ^ 24) := round_le_mul _ hsc0
    have h3 : (1 + 1 / 2 ^ 24 : ℚ) ^ 3 ≤ 1 + 1 / 2 ^ 22 := by norm_num
    calc round (round (round (b - a) / n) * c)
        ≤ round (round (b - a) / n) * c * (1 + 1 / 2 ^ 24) := hP
      _ ≤ round (b - a) / n * (1 + 1 / 2 ^ 24) * c * (1 + 1 / 2 ^ 24) := by gcongr
      _ ≤ (b - a) * (1 + 1 / 2 ^ 24) / n * (1 + 1 / 2 ^ 24) * c * (1 + 1 / 2 ^ 24) := by
          gcongr
      _ = c * (b - a) / n * (1 + 1 / 2 ^ 24) ^ 3 := by ring
      _ ≤ c * (b - a) / n * (1 + 1 / 2 ^ 22) := mul_le_mul_of_nonneg_left h3 hE0

end F32

namespace Assignment4

/-! ## The coordinate mapper -/

/-- C13 (as amended): for `width > 0`, `height > 0` and every region with finite `float`
bounds whose differences `right - left` and `up - down` do not overflow,
`getPosition(0, width, height, left, right, up, down)` is exactly `(left, up)`. -/
theorem getPosition_zero (width height : Nat) (cam : Camera) (hw : 0 < width)
    (hh : 0 < height) (hfl : cam.isFloat)
    (hx : F32.roundFinite (cam.right - cam.left) ≠ none)
    (hy : F32.roundFinite (cam.up - cam.down) ≠ none) :
    getPosition 0 width height cam = (F32.Ext.fin cam.left, F32.Ext.fin cam.up) := by
  obtain ⟨hl, _, hu, _⟩ := hfl
  obtain ⟨dx, hdx⟩ := Option.ne_none_iff_exists'.1 hx
  obtain ⟨dy, hdy⟩ := Option.ne_none_iff_exists'.1 hy
  obtain ⟨sx, hsx⟩ := F32.Ext.div_ofNat_fin dx (F32.roundFinite_bound _ _ hdx) width hw
  obtain ⟨sy, hsy⟩ := F32.Ext.div_ofNat_fin dy (F32.roundFinite_bound _ _ hdy) height hh
  have h0 : F32.Ext.ofNat 0 = F32.Ext.fin 0 := by
    have := F32.Ext.ofNat_fin_of_le 0 (by norm_num)
    rw [Nat.cast_zero] at this
    exact this
  have hz : F32.Ext.ofRat 0 = F32.Ext.fin 0 :=
    F32.Ext.ofRat_of_roundFinite 0 0 F32.roundFinite_zero
  simp only [getPosition, Nat.zero_div, Nat.zero_mod, h0, F32.Ext.sub_fin,
    F32.Ext.ofRat_of_roundFinite _ _ hdx, F32.Ext.ofRat_of_roundFinite _ _ hdy, hsx, hsy,
    F32.Ext.mul_fin, mul_zero, hz, F32.Ext.add_fin, add_zero, sub_zero,
    F32.Ext.ofRat_of_roundFinite _ _ hl, F32.Ext.ofRat_of_roundFinite _ _ hu]

/-- C13, witness: the shipped camera and a 4x4 image. -/
theorem getPosition_zero_witness :
    getPosition 0 4 4 shippedCamera =
      (F32.Ext.fin shippedCamera.left, F32.Ext.fin shippedCamera.up) :=
  getPosition_zero 4 4 shippedCamera (by decide) (by decide) (by decide!) (by decide!)
    (by decide!)

/-- C13, counterexample: the bounds `left = -2^127`, `right = 2^127`, `up = 1`,
`down = -1` are finite `float`s, `right - left = 2^128` overflows to infinity, the column
step is infinite and its product with column 0 is NaN: at index 0 of a 4x4 image the `x`
returned is NaN, not `left`. -/
theorem getPosition_zero_overflow :
    Camera.isFloat ⟨-2 ^ 127, 2 ^ 127, 1, -1⟩ ∧
      getPosition 0 4 4 ⟨-2 ^ 127, 2 ^ 127, 1, -1⟩ = (F32.Ext.nan, F32.Ext.fin 1) ∧
      getPosition 0 4 4 ⟨-2 ^ 127, 2 ^ 127, 1, -1⟩ ≠ (F32.Ext.fin (-2 ^ 127), F32.Ext.fin 1) := by
  decide!

/-- C12 (as amended): for `0 < width ≤ 2^22`, `0 < height ≤ 2^22`, a region with finite
`float` bounds of magnitude at most `2^100` and of extent at least `2^-100` on each axis
(`left + 2^-100 ≤ right`, `down + 2^-100 ≤ up`), and every index `i < width * height`,
`getPosition` returns finite coordinates `(x, y)` inside the closed region:
`left ≤ x ≤ right` and `down ≤ y ≤ up`.  The coordinates are `x = fl(left + P)` and
`y = fl(up - Q)`, `fl` being the rounding to `float`, where the offsets `P` and `Q` are
`column * (right - left) / width` and `row * (up - down) / height` up to a relative error
of `2^-22`, with `column = i % width` and `row = i / width`. -/
theorem getPosition_bounds (width height i : Nat) (cam : Camera) (hw : 0 < width)
    (hw2 : width ≤ 2 ^ 22) (hh : 0 < height) (hh2 : height ≤ 2 ^ 22) (hfl : cam.isFloat)
    (hmag : |cam.left| ≤ 2 ^ 100 ∧ |cam.right| ≤ 2 ^ 100 ∧ |cam.up| ≤ 2 ^ 100 ∧
      |cam.down| ≤ 2 ^ 100)
    (hlr : cam.left + 1 / 2 ^ 100 ≤ cam.right) (hdu : cam.down + 1 / 2 ^ 100 ≤ cam.up)
    (hi : i < width * height) :
    ∃ x y P Q : ℚ,
      getPosition i width height cam = (F32.Ext.fin x, F32.Ext.fin y) ∧
      F32.roundFinite (cam.left + P) = some x ∧
      F32.roundFinite (cam.up - Q) = some y ∧
      ((i % width : Nat) : ℚ) * (cam.right - cam.left) / width * (1 - 1 / 2 ^ 22) ≤ P ∧
      P ≤ ((i % width : Nat) : ℚ) * (cam.right - cam.left) / width * (1 + 1 / 2 ^ 22) ∧
      ((i / width : Nat) : ℚ) * (cam.up - cam.down) / height * (1 - 1 / 2 ^ 22) ≤ Q ∧
      Q ≤ ((i / width : Nat) : ℚ) * (cam.up - cam.down) / height * (1 + 1 / 2 ^ 22) ∧
      cam.left ≤ x ∧ x ≤ cam.right ∧ cam.down ≤ y ∧ y ≤ cam.up := by
  obtain ⟨hl, hr, hu, hd⟩ := hfl
  obtain ⟨ml, mr, mu, md⟩ := hmag
  have ml2 := abs_le.1 ml
  have mr2 := abs_le.1 mr
  have mu2 := abs_le.1 mu
  have md2 := abs_le.1 md
  have hlr2 : cam.left < cam.right := lt_of_lt_of_le (by linarith [show (0 : ℚ) < 1 / 2 ^ 100 by norm_num]) hlr
  have hdu2 : cam.down < cam.up := lt_of_lt_of_le (by linarith [show (0 : ℚ) < 1 / 2 ^ 100 by norm_num]) hdu
  have hcol : i % width + 1 ≤ width := Nat.mod_lt i hw
  have hrow : i / width + 1 ≤ height := Nat.div_lt_of_lt_mul hi
  obtain ⟨hx0, hx1⟩ := F32.steps_le cam.left cam.right hlr2 width (i % width) hw2 hcol
  obtain ⟨hy0, hy1⟩ := F32.steps_le cam.down cam.up hdu2 height (i / width) hh2 hrow
  obtain ⟨hx2, hx3⟩ := F32.steps_near cam.left cam.right hlr2 width (i % width) hw2 hcol
  obtain ⟨hy2, hy3⟩ := F32.steps_near cam.down cam.up hdu2 height (i / width) hh2 hrow
  have hP := F32.Ext.offset_eq cam.left cam.right width (i % width) (by linarith)
    (by linarith [show (2 : ℚ) ^ 101 = 2 ^ 100 + 2 ^ 100 by norm_num]) hw2 hcol
  have hQ := F32.Ext.offset_eq cam.down cam.up height (i / width) (by linarith)
    (by linarith [show (2 : ℚ) ^ 101 = 2 ^ 100 + 2 ^ 100 by norm_num]) hh2 hrow
  have hf100 : F32.isFloat (2 ^ 100) := by decide!
  have h100 : (2 : ℚ) ^ 100 < 2 ^ 128 := by norm_num
  obtain ⟨x, hx⟩ := F32.roundFinite_isSome (2 ^ 100)
    (cam.left + F32.mul (F32.div (F32.sub cam.right cam.left) (F32.ofNat width))
      (F32.ofNat (i % width))) hf100 h100 (abs_le.2 ⟨by linarith, by linarith⟩)
  obtain ⟨y, hy⟩ := F32.roundFinite_isSome (2 ^ 100)
    (cam.up - F32.mul (F32.div (F32.sub cam.up cam.down) (F32.ofNat height))
      (F32.ofNat (i / width))) hf100 h100 (abs_le.2 ⟨by linarith, by linarith⟩)
  refine ⟨x, y, _, _, ?_, hx, hy, hx2, hx3, hy2, hy3,
    F32.le_roundFinite _ _ _ hl (by linarith) hx,
    F32.roundFinite_le _ _ _ hr (by linarith) hx,
    F32.le_roundFinite _ _ _ hd (by linarith) hy,
    F32.roundFinite_le _ _ _ hu (by linarith) hy⟩
  simp only [getPosition]
  rw [hP, hQ, F32.Ext.add_fin, F32.Ext.sub_fin, F32.Ext.ofRat_of_roundFinite _ _ hx,
    F32.Ext.ofRat_of_roundFinite _ _ hy]

/-- C12, witness: the last index of the 4x4 image over the shipped camera. -/
theorem getPosition_bounds_witness :
    ∃ x y P Q : ℚ,
      getPosition 15 4 4 shippedCamera = (F32.Ext.fin x, F32.Ext.fin y) ∧
      F32.roundFinite (shippedCamera.left + P) = some x ∧
      F32.roundFinite (shippedCamera.up - Q) = some y ∧
      ((15 % 4 : Nat) : ℚ) * (shippedCamera.right - shippedCamera.left) / (4 : Nat) *
        (1 - 1 / 2 ^ 22) ≤ P ∧
      P ≤ ((15 % 4 : Nat) : ℚ) * (shippedCamera.right - shippedCamera.left) / (4 : Nat) *
        (1 + 1 / 2 ^ 22) ∧
      ((15 / 4 : Nat) : ℚ) * (shippedCamera.up - shippedCamera.down) / (4 : Nat) *
        (1 - 1 / 2 ^ 22) ≤ Q ∧
      Q ≤ ((15 / 4 : Nat) : ℚ) * (shippedCamera.up - shippedCamera.down) / (4 : Nat) *
        (1 + 1 / 2 ^ 22) ∧
      shippedCamera.left ≤ x ∧ x ≤ shippedCamera.right ∧ shippedCamera.down ≤ y ∧
      y ≤ shippedCamera.up :=
  getPosition_bounds 4 4 15 shippedCamera (by decide) (by decide) (by decide) (by decide)
    (by decide!) (by decide!) (by decide!) (by decide!) (by decide)

/-- C12, counterexample.  With `width = 2^25`, `height = 1` and the shipped camera, the
last column `2^25 - 1` is converted to the `float` `2^25` and `x` is `right` itself, not
below it.  With the bounds `2^24 + 2 < 2^24 + 4`, two neighbouring `float` values, and
`width = 2`, index 1 also gives `x = right`.  With `width = height = 3` and the shipped
camera, `x` at index `width - 1` is neither `right - (right - left) / 3` nor that
expression evaluated in `float`, and `y` in row `height - 1` is not
`down + (up - down) / 3`.  With the finite bounds `left = -2^127`, `right = 2^127` the
difference `right - left` overflows and `x` at index 1 of a 4x4 image is infinite. -/
theorem getPosition_reaches_right :
    (2 ^ 25 - 1 < 2 ^ 25 * 1 ∧
      (getPosition (2 ^ 25 - 1) (2 ^ 25) 1 shippedCamera).1 =
        F32.Ext.fin shippedCamera.right) ∧
    (1 < 2 * 1 ∧
      (getPosition 1 2 1 ⟨2 ^ 24 + 2, 2 ^ 24 + 4, 1, -1⟩).1 = F32.Ext.fin (2 ^ 24 + 4)) ∧
    (getPosition (3 - 1) 3 3 shippedCamera).1 ≠
      F32.Ext.fin (shippedCamera.right - (shippedCamera.right - shippedCamera.left) / 3) ∧
    (getPosition (3 - 1) 3 3 shippedCamera).1 ≠
      F32.Ext.sub (F32.Ext.fin shippedCamera.right)
        (F32.Ext.div (F32.Ext.sub (F32.Ext.fin shippedCamera.right)
          (F32.Ext.fin shippedCamera.left)) (F32.Ext.ofNat 3)) ∧
    (getPosition (3 * (3 - 1)) 3 3 shippedCamera).2 ≠
      F32.Ext.fin (shippedCamera.down + (shippedCamera.up - shippedCamera.down) / 3) ∧
    (1 < 4 * 4 ∧ Camera.isFloat ⟨-2 ^ 127, 2 ^ 127, 1, -1⟩ ∧
      (getPosition 1 4 4 ⟨-2 ^ 127, 2 ^ 127, 1, -1⟩).1 = F32.Ext.inf false) := by
  decide!

end Assignment4

namespace Assignment4

/-! ## Extrapolation above the last threshold and the shipped configuration -/

/-- An escape is reported with a count between 2 and the cap. -/
theorem escape_count_range (c : Complex) (cap k : Nat)
    (h : evaluatePoint c cap = (false, k)) : 2 ≤ k ∧ k ≤ cap := by
  have hl0 : ¬ 2 < (⟨0, 0⟩ : Complex).length := by decide!
  by_cases hex : ∃ n, n < cap ∧ 2 < (orbit c n).length
  · obtain ⟨n, hn, hgt, _, heq⟩ := evaluatePoint_of_exists c cap hex
    rw [heq] at h
    have hk : n + 1 = k := by simpa using h
    have hn0 : n ≠ 0 := by
      intro h0
      rw [h0] at hgt
      exact hl0 hgt
    omega
  · exfalso
    have := evaluateLoop_inSet c cap 0 (fun m hm hgt => hex ⟨m, hm, by simpa using hgt⟩)
    have heq : evaluatePoint c cap = (true, 0) := by simpa [evaluatePoint, orbit] using this
    rw [heq] at h
    simp at h

/-- C20: under the shipped configuration (cap `2^10 - 1 = 1023`, thresholds 0 and 10) every
escaped sample, with count `k`, takes the interpolation branch: the scan stops at index 1,
the factor is `t = log2(k) / 10` with `0 < t < 1`, and the colour is the interpolation of
the two control points; neither the first colour unmodified nor an extrapolation is
produced.  Of `log2` it is assumed that on the counts 2, ..., 1023 its value is a `float`
in `[1, 10)`. -/
theorem shipped_always_interpolates (lg : ℚ → ℚ) (c : Complex) (k : Nat)
    (hlg : ∀ n : Nat, 2 ≤ n → n ≤ 1023 →
      1 ≤ lg (F32.ofNat n) ∧ lg (F32.ofNat n) < 10 ∧ F32.isFloat (lg (F32.ofNat n)))
    (hesc : evaluatePoint c (2 ^ 10 - 1) = (false, k)) :
    (2 ≤ k ∧ k ≤ 1023) ∧
      paletteScan shippedColors.colorPalette (lg (F32.ofNat k)) = 1 ∧
      interpolationFactor shippedColors.colorPalette (lg (F32.ofNat k)) 1 =
        F32.div (lg (F32.ofNat k)) 10 ∧
      0 < F32.div (lg (F32.ofNat k)) 10 ∧ F32.div (lg (F32.ofNat k)) 10 < 1 ∧
      sampleColor lg shippedColors (false, k) =
        some (interpolate shippedColors.colorPalette (F32.div (lg (F32.ofNat k)) 10) 1) := by
  have hk : 2 ≤ k ∧ k ≤ 1023 := escape_count_range c (2 ^ 10 - 1) k hesc
  obtain ⟨h1, h10, hf⟩ := hlg k hk.1 hk.2
  have hpos : 0 < lg (F32.ofNat k) := by linarith
  have h00 : F32.ofNat 0 = 0 := by decide!
  have hscan : paletteScan shippedColors.colorPalette (lg (F32.ofNat k)) = 1 := by
    have hthr : F32.ofNat (threshold shippedColors.colorPalette 0) < lg (F32.ofNat k) := by
      rw [show threshold shippedColors.colorPalette 0 = 0 from rfl, h00]
      exact hpos
    have hc : (0 + 1 < shippedColors.colorPalette.length ∧
        F32.ofNat (threshold shippedColors.colorPalette 0) < lg (F32.ofNat k)) :=
      ⟨by decide, hthr⟩
    have hc2 : ¬ (1 + 1 < shippedColors.colorPalette.length ∧
        F32.ofNat (threshold shippedColors.colorPalette 1) < lg (F32.ofNat k)) :=
      fun h => absurd h.1 (by decide)
    rw [paletteScan, show shippedColors.colorPalette.length = 1 + 1 from rfl, scanLoop,
      if_pos hc, scanLoop, if_neg hc2]
  have hten : F32.ofNat ((10 + 2 ^ 64 - 0) % 2 ^ 64) = 10 := by decide!
  have hfac : interpolationFactor shippedColors.colorPalette (lg (F32.ofNat k)) 1 =
      F32.div (lg (F32.ofNat k)) 10 := by
    have hsub : F32.sub (lg (F32.ofNat k)) (F32.ofNat 0) = lg (F32.ofNat k) := by
      rw [h00]
      unfold F32.sub
      rw [sub_zero]
      exact hf
    show F32.div (F32.sub (lg (F32.ofNat k)) (F32.ofNat 0))
      (F32.ofNat ((10 + 2 ^ 64 - 0) % 2 ^ 64)) = _
    rw [hsub, hten]
  refine ⟨hk, hscan, hfac, ?_, F32.div_ten_lt_one _ hf hpos h10, ?_⟩
  · unfold F32.div
    exact F32.round_pos _ (div_pos hpos (by norm_num))
  · simp only [sampleColor, escapedColor, hscan, hfac]
    simp

/-- The binary exponent, standing for `log2`, is a `float` in `[1, 10)` on 2, ..., 1023. -/
theorem ilog2_range (n : Nat) (h2 : 2 ≤ n) (h1023 : n ≤ 1023) :
    1 ≤ ((F32.ilog2 (F32.ofNat n) : ℤ) : ℚ) ∧ ((F32.ilog2 (F32.ofNat n) : ℤ) : ℚ) < 10 ∧
      F32.isFloat ((F32.ilog2 (F32.ofNat n) : ℤ) : ℚ) := by
  have h12 : (1 : ℚ) < 2 := by norm_num
  rw [F32.ofNat_of_le n (by omega)]
  have hn0 : (0 : ℚ) < n := by exact_mod_cast (show 0 < n by omega)
  obtain ⟨hlo, hhi⟩ := F32.ilog2_spec n (ne_of_gt hn0)
  rw [abs_of_pos hn0] at hlo hhi
  have hn2 : (2 : ℚ) ≤ n := by exact_mod_cast h2
  have hn10 : (n : ℚ) < 2 ^ (10 : ℤ) := by
    have : (n : ℚ) ≤ 1023 := by exact_mod_cast h1023
    norm_num
    linarith
  have ha : (2 : ℚ) ^ (1 : ℤ) < 2 ^ (F32.ilog2 (n : ℚ) + 1) := by
    rw [zpow_one]; linarith
  have hb : (2 : ℚ) ^ F32.ilog2 (n : ℚ) < 2 ^ (10 : ℤ) := lt_of_le_of_lt hlo hn10
  have ha2 := (zpow_lt_zpow_iff_right₀ h12).mp ha
  have hb2 := (zpow_lt_zpow_iff_right₀ h12).mp hb
  refine ⟨by exact_mod_cast (show 1 ≤ F32.ilog2 (n : ℚ) by omega),
    by exact_mod_cast (show F32.ilog2 (n : ℚ) < 10 by omega), ?_⟩
  have := F32.round_int_mul_zpow (F32.ilog2 (n : ℚ)) 0 (by rw [abs_le]; constructor <;> omega)
  rw [zpow_zero, mul_one] at this
  exact this

/-- C20, witness: the point `(2, 2)` escapes with count 2 under the cap 1023. -/
theorem shipped_always_interpolates_witness :
    (2 ≤ 2 ∧ 2 ≤ 1023) ∧
      paletteScan shippedColors.colorPalette
        ((fun q => F32.ilog2 q : ℚ → ℚ) (F32.ofNat 2)) = 1 ∧
      interpolationFactor shippedColors.colorPalette
          ((fun q => F32.ilog2 q : ℚ → ℚ) (F32.ofNat 2)) 1 =
        F32.div ((fun q => F32.ilog2 q : ℚ → ℚ) (F32.ofNat 2)) 10 ∧
      0 < F32.div ((fun q => F32.ilog2 q : ℚ → ℚ) (F32.ofNat 2)) 10 ∧
      F32.div ((fun q => F32.ilog2 q : ℚ → ℚ) (F32.ofNat 2)) 10 < 1 ∧
      sampleColor (fun q => F32.ilog2 q) shippedColors (false, 2) =
        some (interpolate shippedColors.colorPalette
          (F32.div ((fun q => F32.ilog2 q : ℚ → ℚ) (F32.ofNat 2)) 10) 1) :=
  shipped_always_interpolates (fun q => F32.ilog2 q) ⟨2, 2⟩ 2
    (fun n h2 h1023 => ilog2_range n h2 h1023) (by decide!)

end Assignment4

namespace F32

/-! ## The midpoint of two values -/

/-- The half of a binary32 value that is zero or of magnitude at least `2^-125` is a
multiple of `2^-149`. -/
theorem half_on_grid (x : ℚ) (hx : isFloat x) (h : x = 0 ∨ 1 / 2 ^ 125 ≤ |x|) :
    ∃ m : ℤ, x / 2 = (m : ℚ) / 2 ^ 149 := by
  rcases h with h0 | h
  · exact ⟨0, by rw [h0]; norm_num⟩
  have hx0 : x ≠ 0 := by
    intro h0
    rw [h0, abs_zero] at h
    norm_num at h
  obtain ⟨m, hm⟩ := float_on_grid x hx hx0
  obtain ⟨_, h2⟩ := ilog2_spec x hx0
  have h12 : (1 : ℚ) < 2 := by norm_num
  have hk : (-125 : ℤ) < ilog2 x + 1 := by
    have h3 : (2 : ℚ) ^ (-125 : ℤ) < 2 ^ (ilog2 x + 1) := by
      have h4 : (2 : ℚ) ^ (-125 : ℤ) = 1 / 2 ^ 125 := by
        rw [zpow_neg]
        norm_num
      rw [h4]
      exact lt_of_le_of_lt h h2
    exact (zpow_lt_zpow_iff_right₀ h12).mp h3
  obtain ⟨n, hn⟩ : ∃ n : ℕ, ilog2 x - 23 = (n : ℤ) - 148 := ⟨(ilog2 x + 125).toNat, by omega⟩
  refine ⟨m * 2 ^ n, ?_⟩
  rw [hm, hn, zpow_sub₀ (by norm_num : (2 : ℚ) ≠ 0), zpow_natCast]
  push_cast
  have h148 : (2 : ℚ) ^ (148 : ℤ) = 2 ^ 148 := by norm_cast
  rw [h148]
  have h149 : (2 : ℚ) ^ 149 = 2 ^ 148 * 2 := by norm_num
  rw [h149]
  field_simp

/-- For two values that are zero or of magnitude between `2^-125` and `2^126`, the sum of
the two halves computed in `float` is the binary32 value nearest to the exact midpoint. -/
theorem roundFinite_midpoint (a b : ℚ) (ha : inNormalRange a) (hb : inNormalRange b) :
    roundFinite ((a + b) / 2) = some (add (mul (1 / 2) a) (mul (1 / 2) b)) := by
  obtain ⟨ha1, ha2, ha3⟩ := ha
  obtain ⟨hb1, hb2, hb3⟩ := hb
  have haf := isFloat_of_isBinary32 a ha1
  have hbf := isFloat_of_isBinary32 b hb1
  rw [add_halves a b haf hbf, div_add_two]
  have hmid : |(a + b) / 2| ≤ 2 ^ 126 := by
    have h1 := abs_add a b
    rw [abs_div, abs_of_pos (by norm_num : (0 : ℚ) < 2), div_le_iff₀ (by norm_num)]
    linarith
  have hround : |round ((a + b) / 2)| < 2 ^ 128 :=
    lt_of_le_of_lt (abs_round_le_float _ _ (by decide!) hmid) (by norm_num)
  by_cases hn : 1 / 2 ^ 126 ≤ |(a + b) / 2|
  · exact roundFinite_of_normal _ hn hround
  · obtain ⟨ma, hma⟩ := half_on_grid a haf ha2
    obtain ⟨mb, hmb⟩ := half_on_grid b hbf hb2
    have hp : (0 : ℚ) < 2 ^ 149 := by positivity
    have hsum : (a + b) / 2 = ((ma + mb : ℤ) : ℚ) / 2 ^ 149 := by
      rw [add_div, hma, hmb]
      push_cast
      ring
    have hint : (a + b) / 2 * 2 ^ 149 = ((ma + mb : ℤ) : ℚ) := by
      rw [hsum, div_mul_cancel₀ _ (ne_of_gt hp)]
    have hlt : |(a + b) / 2| < 1 / 2 ^ 126 := not_le.1 hn
    have habs : |((ma + mb : ℤ) : ℚ)| ≤ 2 ^ 24 := by
      rw [← hint, abs_mul, abs_of_pos hp]
      have h1 : |(a + b) / 2| * 2 ^ 149 < 1 / 2 ^ 126 * 2 ^ 149 :=
        mul_lt_mul_of_pos_right hlt hp
      have h23 : (1 : ℚ) / 2 ^ 126 * 2 ^ 149 = 2 ^ 23 := by norm_num
      rw [h23] at h1
      have : (2 : ℚ) ^ 23 ≤ 2 ^ 24 := by norm_num
      linarith
    have habsz : |ma + mb| ≤ 2 ^ 24 := by exact_mod_cast habs
    have hgrid : (a + b) / 2 = ((ma + mb : ℤ) : ℚ) * 2 ^ (-149 : ℤ) := by
      have h149 : (2 : ℚ) ^ (149 : ℤ) = 2 ^ 149 := by norm_cast
      rw [hsum, zpow_neg, div_eq_mul_inv, h149]
    have hexact : round ((a + b) / 2) = (a + b) / 2 := by
      have := round_int_mul_zpow (ma + mb) (-149) habsz
      rw [← hgrid] at this
      exact this
    unfold roundFinite
    rw [if_neg (not_le.2 hround), if_neg hn, hint, rne_intCast, hexact, hsum]

end F32

namespace Assignment4

/-! ## The halfway colour -/

/-- C10 (as amended): for the palette `{(0, c0), (10, c1)}`, the channels of `c0` and `c1`
being finite `float`s that are zero or of magnitude between `2^-125` and `2^126`, and a
sample that escaped at `iteration` with `power = log2(iteration) = 5`, the colour computed
before the conversion to bytes is, on each of the three channels, the `float` nearest to
the exact midpoint `(c0 + c1) / 2` (ties to even): it is the midpoint itself exactly when
the midpoint is a `float`. -/
theorem sampleColor_halfway (lg : ℚ → ℚ) (c0 c1 inSet : Color3f) (iteration : Nat)
    (hp : lg (F32.ofNat iteration) = 5) (h0 : c0.inNormalRange) (h1 : c1.inNormalRange) :
    ∃ r g b : ℚ,
      sampleColor lg ⟨[(0, c0), (10, c1)], inSet⟩ (false, iteration) = some ⟨r, g, b⟩ ∧
      F32.roundFinite ((c0.r + c1.r) / 2) = some r ∧
      F32.roundFinite ((c0.g + c1.g) / 2) = some g ∧
      F32.roundFinite ((c0.b + c1.b) / 2) = some b ∧
      (r = (c0.r + c1.r) / 2 ↔ F32.isBinary32 ((c0.r + c1.r) / 2)) ∧
      (g = (c0.g + c1.g) / 2 ↔ F32.isBinary32 ((c0.g + c1.g) / 2)) ∧
      (b = (c0.b + c1.b) / 2 ↔ F32.isBinary32 ((c0.b + c1.b) / 2)) := by
  obtain ⟨h0r, h0g, h0b⟩ := h0
  obtain ⟨h1r, h1g, h1b⟩ := h1
  have hr := F32.roundFinite_midpoint c0.r c1.r h0r h1r
  have hg := F32.roundFinite_midpoint c0.g c1.g h0g h1g
  have hb := F32.roundFinite_midpoint c0.b c1.b h0b h1b
  have key : ∀ (m v : ℚ), F32.roundFinite m = some v → (v = m ↔ F32.isBinary32 m) := by
    intro m v hv
    unfold F32.isBinary32
    rw [hv]
    exact ⟨fun h => by rw [h], fun h => Option.some.inj h⟩
  exact ⟨_, _, _, sampleColor_two_points lg c0 c1 inSet iteration hp, hr, hg, hb,
    key _ _ hr, key _ _ hg, key _ _ hb⟩

/-- C10, witness: the shipped palette (blue and white) and escape iteration 32, the binary
exponent standing for `log2`. -/
theorem sampleColor_halfway_witness :
    ∃ r g b : ℚ,
      sampleColor (fun q => F32.ilog2 q)
        ⟨[(0, ⟨0, F32.round (8 / 100), 1 / 4⟩), (10, ⟨1, 1, 1⟩)], ⟨0, 0, 0⟩⟩ (false, 32) =
        some ⟨r, g, b⟩ ∧
      F32.roundFinite (((0 : ℚ) + 1) / 2) = some r ∧
      F32.roundFinite ((F32.round (8 / 100) + 1) / 2) = some g ∧
      F32.roundFinite (((1 / 4 : ℚ) + 1) / 2) = some b ∧
      (r = ((0 : ℚ) + 1) / 2 ↔ F32.isBinary32 (((0 : ℚ) + 1) / 2)) ∧
      (g = (F32.round (8 / 100) + 1) / 2 ↔ F32.isBinary32 ((F32.round (8 / 100) + 1) / 2)) ∧
      (b = ((1 / 4 : ℚ) + 1) / 2 ↔ F32.isBinary32 (((1 / 4 : ℚ) + 1) / 2)) :=
  sampleColor_halfway (fun q => F32.ilog2 q) ⟨0, F32.round (8 / 100), 1 / 4⟩ ⟨1, 1, 1⟩ ⟨0, 0, 0⟩
    32 (by decide!) (by decide!) (by decide!)

/-- C10, counterexample: for the shipped palette `{(0, blue), (10, white)}` and a sample
with `power = 5` (escape iteration 32, the binary exponent standing for `log2`) the colour
is `(0.5, 9059697 / 2^24, 0.625)`: its green channel is not the exact midpoint of the green
channels `0.08f` and `1`, which is not a `float`. -/
theorem sampleColor_halfway_inexact :
    F32.ilog2 (F32.ofNat 32) = 5 ∧
      sampleColor (fun q => F32.ilog2 q)
        ⟨[(0, ⟨0, F32.round (8 / 100), 1 / 4⟩), (10, ⟨1, 1, 1⟩)], ⟨0, 0, 0⟩⟩ (false, 32) =
        some ⟨1 / 2, 9059697 / 2 ^ 24, 5 / 8⟩ ∧
      (9059697 / 2 ^ 24 : ℚ) ≠ (F32.round (8 / 100) + 1) / 2 ∧
      ¬ F32.isBinary32 ((F32.round (8 / 100) + 1) / 2) := by
  decide!

end Assignment4
